import Mathlib

/-!
Verification of the pipeline orchestration and scheduling service of the
finanzaschile repository (src/server.py), via a shallow embedding of its
scheduling, state-store, log, result-parsing, pipeline-runner and locking
logic.  Machine integers are modelled as Nat/Int, Python dicts as
association lists with Python's insertion-order update semantics, file
contents as Option of character lists, and the json library by an
executable serializer/deserializer pair over a Json value type.
-/

/-! ## Character and string utilities (Python str helpers) -/

/-- ASCII whitespace recognised by Python's str.strip / str.split. -/
def isSpaceB (c : Char) : Bool :=
  c == ' ' || c == '\t' || c == '\n' || c == '\r' || c == '\x0b' || c == '\x0c'

/-- Decimal digit test. -/
def isDigitB (c : Char) : Bool :=
  c == '0' || c == '1' || c == '2' || c == '3' || c == '4' ||
  c == '5' || c == '6' || c == '7' || c == '8' || c == '9'

/-- The decimal digit character for d < 10 (callers only pass d < 10). -/
def dig : Nat → Char
  | 0 => '0' | 1 => '1' | 2 => '2' | 3 => '3' | 4 => '4'
  | 5 => '5' | 6 => '6' | 7 => '7' | 8 => '8' | _ => '9'

/-- Numeric value of a decimal digit character. -/
def digitVal (c : Char) : Nat :=
  if c = '0' then 0 else if c = '1' then 1 else if c = '2' then 2 else
  if c = '3' then 3 else if c = '4' then 4 else if c = '5' then 5 else
  if c = '6' then 6 else if c = '7' then 7 else if c = '8' then 8 else
  if c = '9' then 9 else 0

/-- Decimal rendering of a natural number, fuelled so it reduces in the
kernel; with fuel > m it produces the usual most-significant-first digits. -/
def renderNatAux : Nat → Nat → List Char
  | 0, _ => []
  | fuel + 1, m =>
    if m < 10 then [dig m] else renderNatAux fuel (m / 10) ++ [dig (m % 10)]

/-- Decimal digits of n, as Python's str(n) for a nonnegative int. -/
def renderNatChars (n : Nat) : List Char := renderNatAux (n + 1) n

/-- Zero left-padding to width w, as Python's format spec 0wd. -/
def padLeft (w : Nat) (l : List Char) : List Char :=
  List.replicate (w - l.length) '0' ++ l

def pad2 (n : Nat) : List Char := padLeft 2 (renderNatChars n)

def pad4 (n : Nat) : List Char := padLeft 4 (renderNatChars n)

/-- Python str.strip() (ASCII whitespace) on a character list. -/
def stripL (l : List Char) : List Char :=
  ((l.dropWhile isSpaceB).reverse.dropWhile isSpaceB).reverse

/-- Python str.strip() on a string. -/
def stripS (s : String) : String := String.mk (stripL s.toList)

/-- Python str.rstrip() on a character list. -/
def rstripL (l : List Char) : List Char := (l.reverse.dropWhile isSpaceB).reverse

def rstripS (s : String) : String := String.mk (rstripL s.toList)

/-- Python str.splitlines() for newline-separated text (the log and the
pipeline output only ever use the LF terminator). -/
def splitNl : List Char → List (List Char)
  | [] => []
  | c :: cs =>
    if c = '\n' then [] :: splitNl cs
    else
      match splitNl cs with
      | [] => [[c]]
      | l :: ls => (c :: l) :: ls

/-- Python str.split(",") : the result always has one more piece than there
are commas, so the empty string yields one empty piece. -/
def splitComma : List Char → List (List Char)
  | [] => [[]]
  | c :: cs =>
    if c = ',' then [] :: splitComma cs
    else
      match splitComma cs with
      | [] => [[c]]
      | l :: ls => (c :: l) :: ls

/-- Python "\n".join on character-list lines. -/
def intercalateNl : List (List Char) → List Char
  | [] => []
  | [l] => l
  | l :: ls => l ++ '\n' :: intercalateNl ls

/-- Python l[-k:] slicing: the last k elements (everything when k ≥ length). -/
def takeLast {α : Type} (k : Nat) (l : List α) : List α :=
  l.drop (l.length - k)

/-- Worker for Python str.split() with no separator: whitespace runs are
delimiters and empty pieces are dropped.  acc is the current word, reversed. -/
def wordsAux : List Char → List Char → List (List Char)
  | [], acc => if acc = [] then [] else [acc.reverse]
  | c :: cs, acc =>
    if isSpaceB c then
      (if acc = [] then wordsAux cs [] else acc.reverse :: wordsAux cs [])
    else wordsAux cs (c :: acc)

/-- Python str.split() with no separator. -/
def splitWs (l : List Char) : List (List Char) := wordsAux l []

/-- Digits-only numeral reading: some value iff the list is a nonempty run
of decimal digits. -/
def parseAllDigits (l : List Char) : Option Nat :=
  if l ≠ [] ∧ l.all isDigitB then
    some (l.foldl (fun a c => a * 10 + digitVal c) 0)
  else none

/-- Python int(s) for an already-stripped string: optional sign then digits
(Python additionally accepts underscore digit grouping, never produced by
this program's configuration). -/
def parsePyInt : List Char → Option Int
  | '-' :: rest => (parseAllDigits rest).map (fun n => -(n : Int))
  | '+' :: rest => (parseAllDigits rest).map (fun n => (n : Int))
  | l => (parseAllDigits l).map (fun n => (n : Int))

/-! ## Json values and the state dict (src/server.py state handling)

Python dict values appearing in state.json.  alSet models d[k] = v (an
existing key keeps its position, a new key is appended), alGet models
d.get(k), alRemove models d.pop(k, None). -/

inductive Json where
  | null : Json
  | bool : Bool → Json
  | num : Int → Json
  | str : String → Json
  | arr : List Json → Json
  | obj : List (String × Json) → Json

abbrev StateDict := List (String × Json)

/-- Python d.get(key) on an insertion-ordered dict. -/
def alGet {α : Type} : List (String × α) → String → Option α
  | [], _ => none
  | (k, v) :: rest, key => if k = key then some v else alGet rest key

/-- Python d[key] = v: an existing key keeps its position, a new key is
appended at the end. -/
def alSet {α : Type} (d : List (String × α)) (key : String) (v : α) :
    List (String × α) :=
  if d.any (fun p => p.1 == key) then
    d.map (fun p => if p.1 = key then (key, v) else p)
  else d ++ [(key, v)]

/-- Python d.pop(key, None). -/
def alRemove {α : Type} (d : List (String × α)) (key : String) :
    List (String × α) :=
  d.filter (fun p => p.1 != key)

/-- Models (state.get(key) or "") for the string-or-absent values the
program stores; a missing key, a JSON null and the empty string all give
"".  (A non-string truthy value would raise on the subsequent .strip() in
Python; the program only stores strings under the keys read this way.) -/
def dGetStr (st : StateDict) (key : String) : String :=
  match alGet st key with
  | some (Json.str s) => s
  | _ => ""

/-! ## Schedule configuration and the scheduler (src/server.py lines 232-299) -/

/-- The schedule environment knobs RUN_HOUR, RUN_MINUTES and
RUN_WINDOW_MINUTES with their os.getenv defaults. -/
structure ScheduleConfig where
  runHour : Nat := 7
  runMinutesRaw : String := "0,30"
  runWindowMinutes : Nat := 10

def defaultConfig : ScheduleConfig := {}

/-- Insert into a sorted duplicate-free list, keeping it so. -/
def insertSortedU (m : Nat) : List Nat → List Nat
  | [] => [m]
  | x :: xs =>
    if m < x then m :: x :: xs
    else if m = x then x :: xs
    else x :: insertSortedU m xs

/-- Python sorted(set(l)). -/
def sortedDedup (l : List Nat) : List Nat :=
  l.foldl (fun acc m => insertSortedU m acc) []

/-- _parse_run_minutes: split RUN_MINUTES on commas, strip each piece, skip
empties and unparsable pieces, keep ints in [0, 59], sort and deduplicate,
and fall back to [0] when nothing survives. -/
def parseRunMinutes (raw : String) : List Nat :=
  let pieces := splitComma raw.toList
  let collected := pieces.foldl (fun acc piece =>
    let p := stripL piece
    if p = [] then acc
    else
      match parsePyInt p with
      | some m => if 0 ≤ m ∧ m ≤ 59 then acc ++ [m.toNat] else acc
      | none => acc) []
  let s := sortedDedup collected
  if s = [] then [0] else s

/-- The fields of a Python timezone-aware datetime that the service reads. -/
structure PyDateTime where
  year : Nat
  month : Nat
  day : Nat
  hour : Nat
  minute : Nat
  second : Nat

/-- Python datetime.weekday(): Monday = 0 .. Sunday = 6, via Zeller's
congruence (h = 0 is Saturday, shifted by 5). -/
def pythonWeekday (t : PyDateTime) : Nat :=
  let y := if t.month ≤ 2 then t.year - 1 else t.year
  let m := if t.month ≤ 2 then t.month + 12 else t.month
  let k := y % 100
  let j := y / 100
  let h := (t.day + (13 * (m + 1)) / 5 + k + k / 4 + j / 4 + 5 * j) % 7
  (h + 5) % 7

/-- _match_slot: requires now.hour == RUN_HOUR, then returns the first
configured minute slot m with m <= now.minute < m + max(1, window). -/
def matchSlot (cfg : ScheduleConfig) (now : PyDateTime) : Option Nat :=
  if now.hour ≠ cfg.runHour then none
  else
    (parseRunMinutes cfg.runMinutesRaw).find? (fun m =>
      decide (m ≤ now.minute ∧ now.minute < m + max 1 cfg.runWindowMinutes))

/-- _within_run_window: Monday-Friday and some slot matches.  (No caller in
src/server.py invokes this function.) -/
def withinRunWindow (cfg : ScheduleConfig) (now : PyDateTime) : Bool :=
  decide (pythonWeekday now ≤ 4) && (matchSlot cfg now).isSome

/-- _slot_profile: slot 0 is "short", slot 30 is "normal", anything else
falls through to "short". -/
def slotProfile (slotMinute : Int) : String :=
  if slotMinute = 0 then "short" else if slotMinute = 30 then "normal" else "short"

/-- date.isoformat(): YYYY-MM-DD. -/
def isoDateChars (t : PyDateTime) : List Char :=
  pad4 t.year ++ '-' :: pad2 t.month ++ '-' :: pad2 t.day

/-- The run key f-string: date@HH:SS with the hour and the slot minute
zero-padded to two digits. -/
def runKeyChars (cfg : ScheduleConfig) (t : PyDateTime) (slot : Nat) : List Char :=
  isoDateChars t ++ '@' :: pad2 cfg.runHour ++ ':' :: pad2 slot

def runKeyOf (cfg : ScheduleConfig) (t : PyDateTime) (slot : Nat) : String :=
  String.mk (runKeyChars cfg t slot)

/-- _should_run: outside any slot gives outside_schedule; a slot whose run
key equals the stripped last_success_run_key gives already_ran_this_slot
without touching the state; otherwise the pending slot and pending run key
are recorded and the run is allowed.  The returned dict is the state as
persisted by the call. -/
def shouldRun (cfg : ScheduleConfig) (now : PyDateTime) (st : StateDict) :
    Bool × String × StateDict :=
  match matchSlot cfg now with
  | none => (false, "outside_schedule", st)
  | some slot =>
    let runKey := runKeyOf cfg now slot
    let lastKey := stripS (dGetStr st "last_success_run_key")
    if lastKey = runKey then (false, "already_ran_this_slot", st)
    else
      (true, "ok_to_run",
        alSet (alSet st "_pending_slot" (Json.num slot)) "_pending_run_key"
          (Json.str runKey))

/-! ## Upload result parsing (src/server.py lines 312-336)

Records are Python str-to-str dicts. -/

abbrev URec := List (String × String)

def markerResultChars : List Char := "UPLOAD_RESULT ".toList

def markerSkippedChars : List Char := "UPLOAD_SKIPPED ".toList

/-- Python str.startswith on character lists. -/
def startsWithL : List Char → List Char → Bool
  | [], _ => true
  | _ :: _, [] => false
  | p :: ps, c :: cs => (p == c) && startsWithL ps cs

def isMarkerLine (l : List Char) : Bool :=
  startsWithL markerResultChars l || startsWithL markerSkippedChars l

/-- Python p.split("=", 1): the part before the first '=' and everything
after it. -/
def splitEq1 : List Char → List Char × List Char
  | [] => ([], [])
  | c :: cs =>
    if c = '=' then ([], cs)
    else
      let r := splitEq1 cs
      (c :: r.1, r.2)

/-- Truthiness of d.get(k) for a str-valued dict: a present, nonempty
string. -/
def truthyGet (d : URec) (k : String) : Option String :=
  match alGet d k with
  | some v => if v = "" then none else some v
  | none => none

/-- The token loop of _parse_upload_results: each whitespace-separated
token containing '=' contributes a stripped key/value pair. -/
def lineTokensDict (payload : List Char) (d0 : URec) : URec :=
  (splitWs payload).foldl (fun d p =>
    if p.any (fun c => c == '=') then
      let kv := splitEq1 p
      alSet d (String.mk (stripL kv.1)) (String.mk (stripL kv.2))
    else d) d0

/-- The record built from one marker line before URL derivation: the event
kind plus the parsed tokens. -/
def baseRecord (l : List Char) : URec :=
  let isRes := startsWithL markerResultChars l
  let tagLen := (if isRes then markerResultChars else markerSkippedChars).length
  let payload := stripL (l.drop tagLen)
  lineTokensDict payload [("event", if isRes then "result" else "skipped")]

def watchUrl (vid : String) : String :=
  "https://www.youtube.com/watch?v=" ++ vid

def shortsUrl (vid : String) : String :=
  "https://www.youtube.com/shorts/" ++ vid

/-- The full record for one marker line: when the tokens produced a truthy
id, the two canonical viewer links are added. -/
def lineRecord (l : List Char) : URec :=
  match truthyGet (baseRecord l) "id" with
  | some vid =>
    alSet (alSet (baseRecord l) "url_watch" (watchUrl vid)) "url_shorts" (shortsUrl vid)
  | none => baseRecord l

/-- The line loop of _parse_upload_results: strip each line, skip lines
without a marker, and append one record per marker line. -/
def parseLines : List (List Char) → List URec
  | [] => []
  | line :: rest =>
    if isMarkerLine (stripL line) then lineRecord (stripL line) :: parseLines rest
    else parseLines rest

/-- _parse_upload_results(stdout, stderr): operates on
stdout + "\n" + stderr split into lines. -/
def parseUploadResults (stdout stderr : String) : List URec :=
  parseLines (splitNl (stdout.toList ++ '\n' :: stderr.toList))

/-! ## Pipeline runner and orchestration (src/server.py lines 302-464)

The external world of one job: whether the non-blocking flock succeeds,
and each step's exit code and output lines. -/

structure PipelineEnv where
  lockFree : Bool
  exitCode : String → Int
  stepOutput : String → List String

/-- _pipeline_steps. -/
def pipelineSteps : List (String × List String) :=
  [("fetch_to_json", ["python", "fetch_to_json.py"]),
   ("render_panel", ["python", "render_panel.py"]),
   ("voice", ["python", "voice_from_json.py"]),
   ("make_video", ["bash", "make_video.sh"]),
   ("upload", ["python", "upload_to_youtube.py"])]

/-- The per-step environment overrides selected by the profile. -/
def stepExtraEnv (profile name : String) : List (String × String) :=
  if profile = "short" then
    if name = "make_video" then
      [("GENERATE_FULL_VIDEO", "0"), ("GENERATE_SHORT_VIDEO", "1")]
    else if name = "upload" then
      [("UPLOAD_NORMAL", "0"), ("UPLOAD_SHORT", "1")]
    else []
  else if profile = "normal" then
    if name = "make_video" then
      [("GENERATE_FULL_VIDEO", "1"), ("GENERATE_SHORT_VIDEO", "0")]
    else if name = "upload" then
      [("UPLOAD_NORMAL", "1"), ("UPLOAD_SHORT", "0")]
    else []
  else []

/-- _run's accumulation of marker lines: each output line is rstripped,
empty lines are skipped, and lines starting with either marker are kept. -/
def collectUploadLines (env : PipelineEnv) (name : String) : List String :=
  (((env.stepOutput name).map rstripS).filter (fun s => s ≠ "")).filter
    (fun s => startsWithL markerResultChars s.toList ||
      startsWithL markerSkippedChars s.toList)

/-- "\n".join over strings. -/
def joinedOut (lines : List String) : String :=
  String.mk (intercalateNl (lines.map String.toList))

def recToJson (u : URec) : Json :=
  Json.obj (u.map (fun p => (p.1, Json.str p.2)))

/-- The uploads bookkeeping after the upload step: parse the collected
marker lines, stamp each record with the current timestamp, prepend them
to the stored list and cap it at 50.  (For a missing key setdefault
supplies []; the program only ever stores a list there.) -/
def applyUploads (env : PipelineEnv) (nowIso : String) (st : StateDict) : StateDict :=
  let uploads := parseUploadResults (joinedOut (collectUploadLines env "upload")) ""
  if uploads = [] then st
  else
    let old := match alGet st "uploads" with
      | some (Json.arr xs) => xs
      | _ => []
    let stamped := uploads.map (fun u => recToJson (alSet u "ts" nowIso))
    alSet st "uploads" (Json.arr ((stamped ++ old).take 50))

/-- The step loop of _run_pipeline_job: run each step in order; after the
upload step fold its results into the state; on the first non-zero exit
code record failed / the step name / the finish time and stop.  Returns
the final state, the names of the steps that were invoked, and whether the
loop aborted. -/
def runStepsLoop (env : PipelineEnv) (nowIso : String) :
    List (String × List String) → StateDict → StateDict × List String × Bool
  | [], st => (st, [], false)
  | (name, _cmd) :: rest, st =>
    let code := env.exitCode name
    let st1 := if name = "upload" then applyUploads env nowIso st else st
    if code ≠ 0 then
      (alSet (alSet (alSet st1 "last_status" (Json.str "failed"))
          "last_error_step" (Json.str name))
        "last_finished_at" (Json.str nowIso),
       [name], true)
    else
      let r := runStepsLoop env nowIso rest st1
      (r.1, name :: r.2.1, r.2.2)

/-- datetime.isoformat(timespec="seconds") without the UTC-offset suffix
(an opaque timestamp for this development). -/
def isoTsChars (t : PyDateTime) : List Char :=
  isoDateChars t ++ 'T' :: pad2 t.hour ++ ':' :: pad2 t.minute ++ ':' :: pad2 t.second

def isoTs (t : PyDateTime) : String := String.mk (isoTsChars t)

/-- strftime("%d-%m-%Y"). -/
def successDateChars (t : PyDateTime) : List Char :=
  pad2 t.day ++ '-' :: pad2 t.month ++ '-' :: pad4 t.year

/-- Python truthiness of a JSON value. -/
def pyFalsy : Json → Bool
  | Json.null => true
  | Json.bool b => !b
  | Json.num i => i == 0
  | Json.str s => s == ""
  | Json.arr xs => xs.isEmpty
  | Json.obj kvs => kvs.isEmpty

/-- int(slot) if slot is not None else 0, inside try/except that yields 0:
a missing or null pending slot, and any value int() rejects, give 0. -/
def pendingSlotInt (st : StateDict) : Int :=
  match alGet st "_pending_slot" with
  | some (Json.num i) => i
  | some (Json.bool b) => if b then 1 else 0
  | some (Json.str s) => (parsePyInt (stripL s.toList)).getD 0
  | some _ => 0
  | none => 0

/-- int(slot or 0) in the run-key default: a falsy or missing slot gives 0.
(A non-numeric truthy value would raise here in Python — unguarded — but
the program only ever stores int(slot); such values are modelled as 0.) -/
def slotOrZeroInt (st : StateDict) : Int :=
  match alGet st "_pending_slot" with
  | none => 0
  | some v =>
    if pyFalsy v then 0
    else
      match v with
      | Json.num i => i
      | Json.bool _ => 1
      | Json.str s => (parsePyInt (stripL s.toList)).getD 0
      | _ => 0

/-- f-string {i:02d} for a possibly negative int. -/
def pad2Int (i : Int) : List Char :=
  if i < 0 then '-' :: renderNatChars i.natAbs else pad2 i.toNat

/-- The profile decision of _run_pipeline_job: an explicit short/normal
override wins, otherwise the pending slot's profile (defaulting to slot 0). -/
def jobProfile (st : StateDict) (forcedProfile : Option String) : String :=
  match forcedProfile with
  | some p => if p = "short" ∨ p = "normal" then p else slotProfile (pendingSlotInt st)
  | none => slotProfile (pendingSlotInt st)

/-- The run-key decision of _run_pipeline_job: the stripped pending run key
when nonempty, else date@HH:SS from the pending slot (or 0). -/
def jobRunKey (cfg : ScheduleConfig) (now : PyDateTime) (st : StateDict) : String :=
  let pk := stripS (dGetStr st "_pending_run_key")
  if pk ≠ "" then pk
  else
    String.mk (isoDateChars now ++ '@' :: pad2 cfg.runHour ++ ':' ::
      pad2Int (slotOrZeroInt st))

/-- _run_pipeline_job: write the running header into the state; if the
non-blocking lock fails, record skipped_already_running and stop without
invoking any step; otherwise run the step loop and, unless it aborted,
commit success / the run key and clear the pending markers.  Returns the
final persisted state and the invoked step names.  (The state re-reads in
the Python code see exactly the previously written dict, because the lock
and thread guard make the job the only writer.) -/
def runPipelineJob (env : PipelineEnv) (cfg : ScheduleConfig) (now : PyDateTime)
    (startedBy : String) (forced : Bool) (forcedProfile : Option String)
    (state0 : StateDict) : StateDict × List String :=
  let profile := jobProfile state0 forcedProfile
  let iso := isoTs now
  let st1 :=
    alSet (alSet (alSet (alSet (alSet (alSet state0
      "last_started_at" (Json.str iso))
      "last_started_by" (Json.str startedBy))
      "last_forced" (Json.bool forced))
      "last_status" (Json.str "running"))
      "last_error_step" Json.null)
      "last_profile" (Json.str profile)
  if env.lockFree then
    let r := runStepsLoop env iso pipelineSteps st1
    if r.2.2 then (r.1, r.2.1)
    else
      let st3 :=
        alRemove (alRemove (alSet (alSet (alSet (alSet r.1
          "last_status" (Json.str "success"))
          "last_finished_at" (Json.str iso))
          "last_success_date" (Json.str (String.mk (successDateChars now))))
          "last_success_run_key" (Json.str (jobRunKey cfg now state0)))
          "_pending_slot") "_pending_run_key"
      (st3, r.2.1)
  else
    (alSet (alSet st1 "last_status" (Json.str "skipped_already_running"))
      "last_finished_at" (Json.str iso), [])

/-! ## JSON serialization and the state store (src/server.py lines 96-109)

_write_state persists json.dumps(state) (whitespace elided — it only pads
the layout) and _read_state parses the file back with json.loads, mapping
a missing file or a parse error to the empty dict.  The json library is
modelled by an executable serializer and a fuelled recursive-descent
deserializer over the Json value type. -/

def lbraceC : Char := '\x7b'

def rbraceC : Char := '\x7d'

/-- JSON string escaping for the characters this serializer escapes
(Python additionally \u-escapes other control characters). -/
def escChar (c : Char) : List Char :=
  if c = '"' then ['\\', '"']
  else if c = '\\' then ['\\', '\\']
  else if c = '\n' then ['\\', 'n']
  else if c = '\t' then ['\\', 't']
  else if c = '\r' then ['\\', 'r']
  else [c]

def escList : List Char → List Char
  | [] => []
  | c :: cs => escChar c ++ escList cs

def renderIntChars (i : Int) : List Char :=
  if i < 0 then '-' :: renderNatChars i.natAbs else renderNatChars i.toNat

mutual
def dumpChars : Json → List Char
  | Json.null => ['n', 'u', 'l', 'l']
  | Json.bool true => ['t', 'r', 'u', 'e']
  | Json.bool false => ['f', 'a', 'l', 's', 'e']
  | Json.num i => renderIntChars i
  | Json.str s => '"' :: escList s.toList ++ ['"']
  | Json.arr [] => ['[', ']']
  | Json.arr (x :: xs) => '[' :: (dumpChars x ++ dumpItemsRest xs) ++ [']']
  | Json.obj [] => [lbraceC, rbraceC]
  | Json.obj (kv :: kvs) => lbraceC :: (dumpField kv ++ dumpFieldsRest kvs) ++ [rbraceC]

def dumpField : String × Json → List Char
  | (k, v) => '"' :: escList k.toList ++ '"' :: ':' :: dumpChars v

def dumpItemsRest : List Json → List Char
  | [] => []
  | x :: xs => ',' :: (dumpChars x ++ dumpItemsRest xs)

def dumpFieldsRest : List (String × Json) → List Char
  | [] => []
  | kv :: kvs => ',' :: (dumpField kv ++ dumpFieldsRest kvs)
end

def unescChar (c : Char) : Option Char :=
  if c = '"' then some '"'
  else if c = '\\' then some '\\'
  else if c = 'n' then some '\n'
  else if c = 't' then some '\t'
  else if c = 'r' then some '\r'
  else none

/-- JSON string body: everything up to the closing quote, unescaping. -/
def parseStringBody : List Char → Option (List Char × List Char)
  | [] => none
  | c :: rest =>
    if c = '"' then some ([], rest)
    else if c = '\\' then
      match rest with
      | [] => none
      | c2 :: rest2 =>
        match unescChar c2 with
        | some u =>
          match parseStringBody rest2 with
          | some p => some (u :: p.1, p.2)
          | none => none
        | none => none
    else
      match parseStringBody rest with
      | some p => some (c :: p.1, p.2)
      | none => none

def parseDigitsAcc (acc : Nat) : List Char → Nat × List Char
  | [] => (acc, [])
  | c :: rest =>
    if isDigitB c then parseDigitsAcc (acc * 10 + digitVal c) rest
    else (acc, c :: rest)

def parseNumNat (l : List Char) : Option (Nat × List Char) :=
  match l with
  | [] => none
  | c :: _ => if isDigitB c then some (parseDigitsAcc 0 l) else none

def digitStartB : List Char → Bool
  | [] => false
  | c :: _ => isDigitB c

mutual
def parseVal : Nat → List Char → Option (Json × List Char)
  | 0, _ => none
  | _ + 1, [] => none
  | f + 1, c :: rest =>
    if c = 'n' then
      match rest with
      | 'u' :: 'l' :: 'l' :: r => some (Json.null, r)
      | _ => none
    else if c = 't' then
      match rest with
      | 'r' :: 'u' :: 'e' :: r => some (Json.bool true, r)
      | _ => none
    else if c = 'f' then
      match rest with
      | 'a' :: 'l' :: 's' :: 'e' :: r => some (Json.bool false, r)
      | _ => none
    else if c = '"' then
      match parseStringBody rest with
      | some p => some (Json.str (String.mk p.1), p.2)
      | none => none
    else if c = '-' then
      match parseNumNat rest with
      | some p => some (Json.num (-(p.1 : Int)), p.2)
      | none => none
    else if c = '[' then
      match rest with
      | [] => none
      | c2 :: r2 =>
        if c2 = ']' then some (Json.arr [], r2)
        else
          match parseItems f rest with
          | some p => some (Json.arr p.1, p.2)
          | none => none
    else if c = lbraceC then
      match rest with
      | [] => none
      | c2 :: r2 =>
        if c2 = rbraceC then some (Json.obj [], r2)
        else
          match parseFields f rest with
          | some p => some (Json.obj p.1, p.2)
          | none => none
    else if isDigitB c then
      match parseNumNat (c :: rest) with
      | some p => some (Json.num (p.1 : Int), p.2)
      | none => none
    else none

def parseItems : Nat → List Char → Option (List Json × List Char)
  | 0, _ => none
  | f + 1, input =>
    match parseVal f input with
    | some (v, r1) =>
      match r1 with
      | [] => none
      | c :: r2 =>
        if c = ',' then
          match parseItems f r2 with
          | some p => some (v :: p.1, p.2)
          | none => none
        else if c = ']' then some ([v], r2)
        else none
    | none => none

def parseFields : Nat → List Char → Option (List (String × Json) × List Char)
  | 0, _ => none
  | f + 1, input =>
    match input with
    | [] => none
    | c :: rest =>
      if c = '"' then
        match parseStringBody rest with
        | some (k, r1) =>
          match r1 with
          | [] => none
          | c2 :: r2 =>
            if c2 = ':' then
              match parseVal f r2 with
              | some (v, r3) =>
                match r3 with
                | [] => none
                | c3 :: r4 =>
                  if c3 = ',' then
                    match parseFields f r4 with
                    | some p => some ((String.mk k, v) :: p.1, p.2)
                    | none => none
                  else if c3 = rbraceC then some ([(String.mk k, v)], r4)
                  else none
              | none => none
            else none
        | none => none
      else none
end

/-- json.loads on a whole document: fuel 2·length + 2 suffices for every
serialized value, and trailing garbage is rejected like Python does. -/
def loads (s : List Char) : Option Json :=
  match parseVal (2 * s.length + 2) s with
  | some (j, []) => some j
  | _ => none

/-- _write_state: the state file after an (atomic tmp-then-rename) write. -/
def writeState (st : Json) : Option (List Char) := some (dumpChars st)

/-- _read_state: a missing file or any content json.loads rejects reads as
the empty dict. -/
def readState (file : Option (List Char)) : Json :=
  match file with
  | none => Json.obj []
  | some s =>
    match loads s with
    | some j => j
    | none => Json.obj []

mutual
/-- Fuel needed by parseVal for a serialized value (parseItems and
parseFields consume one unit per element). -/
def jcost : Json → Nat
  | Json.arr [] => 1
  | Json.arr (x :: xs) => 1 + listCost (x :: xs)
  | Json.obj [] => 1
  | Json.obj (kv :: kvs) => 1 + fieldsCost (kv :: kvs)
  | _ => 1

def listCost : List Json → Nat
  | [] => 0
  | x :: xs => 1 + max (jcost x) (listCost xs)

def fieldsCost : List (String × Json) → Nat
  | [] => 0
  | kv :: kvs => 1 + max (jcost kv.2) (fieldsCost kvs)
end

/-! ## Log truncation (src/server.py lines 112-142) -/

/-- MAX_LOG_BYTES default. -/
def maxLogBytesDefault : Nat := 1000000

/-- TAIL_BYTES default. -/
def tailBytesDefault : Nat := 250000

/-- _truncate_log_if_needed on a log whose content is given: when the size
exceeds the ceiling, keep the last min(TAIL_BYTES, size) bytes, split them
into lines, keep the last 2000 lines and rewrite them newline-joined with
a trailing newline.  (Bytes are modelled as characters; the log is ASCII
text produced by _append_log.) -/
def truncateLog (maxB tailB : Nat) (content : List Char) : List Char :=
  if content.length ≤ maxB then content
  else
    intercalateNl (takeLast 2000 (splitNl (takeLast (min tailB content.length)
      content))) ++ ['\n']

/-- _append_log followed by its truncation pass. -/
def appendLog (maxB tailB : Nat) (content line : List Char) : List Char :=
  truncateLog maxB tailB (content ++ rstripL line ++ ['\n'])

/-! ## Mutual exclusion model (src/server.py lines 218-226, 453-464)

A labelled transition system over the jobs the orchestrator can spawn.
Each job belongs to an OS process (its owner).  spawn models
_start_background_job: under _thread_guard it refuses while the process's
background thread is alive.  acquire/skipLock model
_acquire_lock_nonblocking inside _run_pipeline_job: the OS grants the
advisory flock only when no job holds it, otherwise the job records
skipped_already_running and stops without running any step.  finish models
the finally block releasing the lock on every exit path.  A job is
"running" exactly while it executes the step loop under the lock. -/

inductive JobPhase where
  | notStarted : JobPhase
  | started : JobPhase
  | running : JobPhase
  | skipped : JobPhase
  | done : JobPhase
deriving DecidableEq

/-- Thread.is_alive(): the background thread exists and has not returned. -/
def JobPhase.alive : JobPhase → Bool
  | JobPhase.started => true
  | JobPhase.running => true
  | _ => false

structure OrchSys where
  lockHolder : Option Nat
  phase : Nat → JobPhase
  owner : Nat → Nat

def initSys (own : Nat → Nat) : OrchSys :=
  { lockHolder := none, phase := fun _ => JobPhase.notStarted, owner := own }

inductive OrchStep : OrchSys → OrchSys → Prop where
  | spawn (s : OrchSys) (j : Nat) :
      s.phase j = JobPhase.notStarted →
      (∀ j', s.owner j' = s.owner j → (s.phase j').alive = false) →
      OrchStep s
        { s with phase := fun k => if k = j then JobPhase.started else s.phase k }
  | acquire (s : OrchSys) (j : Nat) :
      s.phase j = JobPhase.started →
      s.lockHolder = none →
      OrchStep s
        { s with
          lockHolder := some j
          phase := fun k => if k = j then JobPhase.running else s.phase k }
  | skipLock (s : OrchSys) (j hld : Nat) :
      s.phase j = JobPhase.started →
      s.lockHolder = some hld →
      OrchStep s
        { s with phase := fun k => if k = j then JobPhase.skipped else s.phase k }
  | finish (s : OrchSys) (j : Nat) :
      s.phase j = JobPhase.running →
      OrchStep s
        { s with
          lockHolder := none
          phase := fun k => if k = j then JobPhase.done else s.phase k }

inductive OrchReachable (own : Nat → Nat) : OrchSys → Prop where
  | init : OrchReachable own (initSys own)
  | step {s t : OrchSys} : OrchReachable own s → OrchStep s t → OrchReachable own t

/-! ## Fixtures for concrete witnesses -/

def envC4 : PipelineEnv :=
  { lockFree := true
    exitCode := fun n => if n = "b" then 1 else 0
    stepOutput := fun _ => [] }

def stepsC4 : List (String × List String) := [("a", []), ("b", []), ("c", [])]

def demoOwner : Nat → Nat := fun _ => 0

def demoSys1 : OrchSys :=
  { lockHolder := none
    phase := fun k => if k = 0 then JobPhase.started else (initSys demoOwner).phase k
    owner := demoOwner }

def demoSys2 : OrchSys :=
  { lockHolder := some 0
    phase := fun k => if k = 0 then JobPhase.running else demoSys1.phase k
    owner := demoOwner }

/-! ## Helper lemmas -/

theorem dig_isDigit (d : Nat) : isDigitB (dig d) = true := by
  rcases d with _ | _ | _ | _ | _ | _ | _ | _ | _ | _ | d <;> rfl

theorem renderNatAux_digits (fuel : Nat) :
    ∀ (n : Nat), ∀ c ∈ renderNatAux fuel n, isDigitB c = true := by
  induction fuel with
  | zero => intro n c hc; simp [renderNatAux] at hc
  | succ fuel ih =>
    intro n c hc
    by_cases h : n < 10
    · simp [renderNatAux, h] at hc
      subst hc; exact dig_isDigit n
    · simp [renderNatAux, h] at hc
      rcases hc with hc | hc
      · exact ih _ c hc
      · subst hc; exact dig_isDigit (n % 10)

theorem isDigit_not_space {c : Char} (h : isDigitB c = true) : isSpaceB c = false := by
  simp only [isDigitB, Bool.or_eq_true, beq_iff_eq] at h
  rcases h with (((((((((h | h) | h) | h) | h) | h) | h) | h) | h) | h) <;>
    subst h <;> decide

theorem dropWhile_space_eq_self {l : List Char}
    (h : ∀ c ∈ l, isSpaceB c = false) : l.dropWhile isSpaceB = l := by
  cases l with
  | nil => rfl
  | cons c cs => simp [List.dropWhile_cons, h c (by simp)]

theorem stripL_eq_self {l : List Char}
    (h : ∀ c ∈ l, isSpaceB c = false) : stripL l = l := by
  unfold stripL
  rw [dropWhile_space_eq_self h, dropWhile_space_eq_self (by simpa using h),
    List.reverse_reverse]

theorem pad_nonspace {w n : Nat} {c : Char}
    (hc : c ∈ padLeft w (renderNatChars n)) : isSpaceB c = false := by
  unfold padLeft at hc
  rcases List.mem_append.mp hc with h | h
  · rw [List.eq_of_mem_replicate h]; decide
  · exact isDigit_not_space (renderNatAux_digits _ _ c h)

theorem append_nonspace {a b : List Char}
    (ha : ∀ c ∈ a, isSpaceB c = false) (hb : ∀ c ∈ b, isSpaceB c = false) :
    ∀ c ∈ a ++ b, isSpaceB c = false := by
  intro c hc
  rcases List.mem_append.mp hc with h | h
  exacts [ha c h, hb c h]

theorem cons_nonspace {a : Char} {b : List Char}
    (ha : isSpaceB a = false) (hb : ∀ c ∈ b, isSpaceB c = false) :
    ∀ c ∈ a :: b, isSpaceB c = false := by
  intro c hc
  rcases List.mem_cons.mp hc with rfl | h
  exacts [ha, hb c h]

theorem runKeyChars_nonspace (cfg : ScheduleConfig) (t : PyDateTime) (slot : Nat) :
    ∀ c ∈ runKeyChars cfg t slot, isSpaceB c = false := by
  intro c hc
  unfold runKeyChars isoDateChars pad2 pad4 at hc
  simp only [List.mem_append, List.mem_cons] at hc
  casesm* _ ∨ _
  all_goals first
    | exact pad_nonspace (by assumption)
    | (subst c; decide)

theorem stripS_runKey (cfg : ScheduleConfig) (t : PyDateTime) (slot : Nat) :
    stripS (runKeyOf cfg t slot) = runKeyOf cfg t slot := by
  unfold stripS runKeyOf
  have : (String.mk (runKeyChars cfg t slot)).toList = runKeyChars cfg t slot := rfl
  rw [this, stripL_eq_self (runKeyChars_nonspace cfg t slot)]

theorem parseRunMinutes_default : parseRunMinutes "0,30" = [0, 30] := by decide

/-! ## Claim theorems (scheduler) -/

/-- Claim C1 is a code bug: on Saturday 2026-10-10 at 07:05 with empty
persisted state, Python weekday() is 5 (> 4, a weekend), the unused
_within_run_window correctly reports false, yet _should_run — which never
consults the weekday — returns (true, "ok_to_run") and claims the slot,
where the claim and the spec require (false, "outside_schedule"). -/
theorem c1_weekend_slot_still_runs :
    pythonWeekday ⟨2026, 10, 10, 7, 5, 0⟩ = 5 ∧
    4 < pythonWeekday ⟨2026, 10, 10, 7, 5, 0⟩ ∧
    withinRunWindow defaultConfig ⟨2026, 10, 10, 7, 5, 0⟩ = false ∧
    shouldRun defaultConfig ⟨2026, 10, 10, 7, 5, 0⟩ [] =
      (true, "ok_to_run",
        [("_pending_slot", Json.num 0),
         ("_pending_run_key", Json.str "2026-10-10@07:00")]) :=
  ⟨by decide, by decide, by decide, rfl⟩

/-- Claim C2: with the default configuration (hour 7, slots 0 and 30,
window 10), 07:05 matches slot 0 whose profile is "short", 07:35 matches
slot 30 whose profile is "normal", 08:00 matches nothing and _should_run
answers outside_schedule; in general slot m is returned exactly when the
hour is 7, m is a configured slot and m ≤ minute < m + 10. -/
theorem c2_slot_window_semantics :
    (∀ y mo d s, matchSlot defaultConfig ⟨y, mo, d, 7, 5, s⟩ = some 0) ∧
    slotProfile 0 = "short" ∧
    (∀ y mo d s, matchSlot defaultConfig ⟨y, mo, d, 7, 35, s⟩ = some 30) ∧
    slotProfile 30 = "normal" ∧
    (∀ y mo d s st, matchSlot defaultConfig ⟨y, mo, d, 8, 0, s⟩ = none ∧
      shouldRun defaultConfig ⟨y, mo, d, 8, 0, s⟩ st = (false, "outside_schedule", st)) ∧
    (∀ now m, matchSlot defaultConfig now = some m ↔
      now.hour = 7 ∧ (m = 0 ∨ m = 30) ∧ m ≤ now.minute ∧ now.minute < m + 10) := by
  refine ⟨fun y mo d s => rfl, rfl, fun y mo d s => rfl, rfl,
    fun y mo d s st => ⟨rfl, rfl⟩, ?_⟩
  intro now m
  unfold matchSlot
  have hraw : parseRunMinutes defaultConfig.runMinutesRaw = [0, 30] := by decide
  have hcfg : defaultConfig.runHour = 7 := rfl
  have hwin : max 1 defaultConfig.runWindowMinutes = 10 := rfl
  simp only [hraw, hcfg, hwin]
  by_cases hh : now.hour = 7
  · rw [if_neg (show ¬now.hour ≠ 7 by omega)]
    by_cases h0 : now.minute < 10
    · rw [List.find?_cons_of_pos _ (by simp; omega)]
      constructor
      · intro h
        injection h with h'
        subst h'
        exact ⟨hh, Or.inl rfl, by omega⟩
      · intro ⟨_, hm, hlo, hhi⟩
        rcases hm with rfl | rfl
        · rfl
        · omega
    · by_cases h30 : 30 ≤ now.minute ∧ now.minute < 40
      · rw [List.find?_cons_of_neg _ (by simp; omega),
          List.find?_cons_of_pos _ (by simp; omega)]
        constructor
        · intro h
          injection h with h'
          subst h'
          exact ⟨hh, Or.inr rfl, by omega⟩
        · intro ⟨_, hm, hlo, hhi⟩
          rcases hm with rfl | rfl
          · omega
          · rfl
      · rw [List.find?_cons_of_neg _ (by simp; omega),
          List.find?_cons_of_neg _ (by simp; omega)]
        constructor
        · intro h; cases h
        · intro ⟨_, hm, hlo, hhi⟩
          rcases hm with rfl | rfl
          · omega
          · omega
  · rw [if_pos hh]
    constructor
    · intro h; cases h
    · intro ⟨h7, _⟩; exact absurd h7 hh

/-- Claim C3: when a slot matches and the stored last_success_run_key is
exactly that slot's run key, _should_run reports already_ran_this_slot and
leaves the state untouched, so every repeated poll of the same opportunity
gives the identical answer. -/
theorem c3_already_ran_idempotent (now : PyDateTime) (st : StateDict) (slot : Nat)
    (hslot : matchSlot defaultConfig now = some slot)
    (hkey : dGetStr st "last_success_run_key" = runKeyOf defaultConfig now slot) :
    shouldRun defaultConfig now st = (false, "already_ran_this_slot", st) ∧
    shouldRun defaultConfig now (shouldRun defaultConfig now st).2.2 =
      shouldRun defaultConfig now st := by
  have h1 : shouldRun defaultConfig now st = (false, "already_ran_this_slot", st) := by
    unfold shouldRun
    rw [hslot]
    simp only [hkey, stripS_runKey]
    simp
  refine ⟨h1, ?_⟩
  rw [h1]
  exact h1

/-- Witness for c3_already_ran_idempotent at Monday 2026-10-12 07:05 with
the matching 07:00 run key stored. -/
theorem c3_witness :
    matchSlot defaultConfig ⟨2026, 10, 12, 7, 5, 0⟩ = some 0 ∧
    dGetStr [("last_success_run_key", Json.str "2026-10-12@07:00")]
      "last_success_run_key" =
      runKeyOf defaultConfig ⟨2026, 10, 12, 7, 5, 0⟩ 0 ∧
    shouldRun defaultConfig ⟨2026, 10, 12, 7, 5, 0⟩
      [("last_success_run_key", Json.str "2026-10-12@07:00")] =
      (false, "already_ran_this_slot",
        [("last_success_run_key", Json.str "2026-10-12@07:00")]) :=
  ⟨rfl, rfl,
    (c3_already_ran_idempotent ⟨2026, 10, 12, 7, 5, 0⟩
      [("last_success_run_key", Json.str "2026-10-12@07:00")] 0 rfl rfl).1⟩

/-! ## Dict lemmas -/

theorem alGet_cons {α : Type} (k1 : String) (v1 : α) (rest : List (String × α))
    (key : String) :
    alGet ((k1, v1) :: rest) key = if k1 = key then some v1 else alGet rest key := rfl

theorem alGet_mapset {α : Type} (k : String) (v : α) :
    ∀ (d : List (String × α)), d.any (fun p => p.1 == k) = true →
      alGet (d.map (fun p => if p.1 = k then (k, v) else p)) k = some v := by
  intro d
  induction d with
  | nil => intro h; simp at h
  | cons p rest ih =>
    intro h
    obtain ⟨k1, v1⟩ := p
    by_cases hp : k1 = k
    · subst hp
      simp [alGet_cons]
    · have h' : rest.any (fun p => p.1 == k) = true := by
        simp only [List.any_cons, Bool.or_eq_true, beq_iff_eq] at h
        rcases h with h | h
        · exact absurd h hp
        · exact h
      simp only [List.map_cons, if_neg (show ¬(k1, v1).1 = k from hp)]
      rw [alGet_cons, if_neg hp]
      exact ih h'

theorem alGet_append_right_self {α : Type} (k : String) (v : α) :
    ∀ (d : List (String × α)), d.any (fun p => p.1 == k) = false →
      alGet (d ++ [(k, v)]) k = some v := by
  intro d
  induction d with
  | nil => simp [alGet_cons]
  | cons p rest ih =>
    intro h
    obtain ⟨k1, v1⟩ := p
    rw [List.any_cons] at h
    rcases Bool.or_eq_false_iff.mp h with ⟨ha, hb⟩
    have hne : k1 ≠ k := by simpa using ha
    rw [List.cons_append, alGet_cons, if_neg hne]
    exact ih hb

theorem alGet_alSet_self {α : Type} (d : List (String × α)) (k : String) (v : α) :
    alGet (alSet d k v) k = some v := by
  unfold alSet
  by_cases h : d.any (fun p => p.1 == k) = true
  · rw [if_pos h]; exact alGet_mapset k v d h
  · rw [if_neg h]
    have hfalse : d.any (fun p => p.1 == k) = false := by
      cases hb : d.any (fun p => p.1 == k)
      · rfl
      · exact absurd hb h
    exact alGet_append_right_self k v d hfalse

theorem alGet_alSet_ne {α : Type} (d : List (String × α)) (k k' : String) (v : α)
    (h : k' ≠ k) : alGet (alSet d k v) k' = alGet d k' := by
  have hkk : ¬(k = k') := fun he => h he.symm
  unfold alSet
  by_cases hany : d.any (fun p => p.1 == k) = true
  · rw [if_pos hany]
    clear hany
    induction d with
    | nil => rfl
    | cons p rest ih =>
      obtain ⟨k1, v1⟩ := p
      by_cases h1 : k1 = k
      · subst h1
        rw [List.map_cons, if_pos (show (k1, v1).1 = k1 from rfl)]
        rw [alGet_cons, alGet_cons, if_neg hkk, if_neg hkk]
        exact ih
      · rw [List.map_cons, if_neg (show ¬(k1, v1).1 = k from h1)]
        rw [alGet_cons, alGet_cons]
        by_cases h2 : k1 = k'
        · rw [if_pos h2, if_pos h2]
        · rw [if_neg h2, if_neg h2]; exact ih
  · rw [if_neg hany]
    clear hany
    induction d with
    | nil => simp [alGet_cons, if_neg hkk, alGet]
    | cons p rest ih =>
      obtain ⟨k1, v1⟩ := p
      rw [List.cons_append, alGet_cons, alGet_cons]
      by_cases h2 : k1 = k'
      · rw [if_pos h2, if_pos h2]
      · rw [if_neg h2, if_neg h2]; exact ih

theorem alGet_alRemove_ne {α : Type} (d : List (String × α)) (k k' : String)
    (h : k' ≠ k) : alGet (alRemove d k) k' = alGet d k' := by
  have hkk : ¬(k = k') := fun he => h he.symm
  induction d with
  | nil => rfl
  | cons p rest ih =>
    obtain ⟨k1, v1⟩ := p
    unfold alRemove at ih ⊢
    rw [List.filter_cons]
    by_cases h1 : k1 = k
    · subst h1
      simp only [bne_self_eq_false, Bool.false_eq_true, if_false]
      rw [ih, alGet_cons, if_neg hkk]
    · simp only [show (k1 != k) = true by simpa using h1, if_true]
      rw [alGet_cons, alGet_cons]
      by_cases h2 : k1 = k'
      · rw [if_pos h2, if_pos h2]
      · rw [if_neg h2, if_neg h2]; exact ih

theorem applyUploads_preserveGet (env : PipelineEnv) (iso : String) (st : StateDict)
    (k : String) (hk : k ≠ "uploads") :
    alGet (applyUploads env iso st) k = alGet st k := by
  simp only [applyUploads]
  by_cases hU : parseUploadResults (joinedOut (collectUploadLines env "upload")) "" = []
  · rw [if_pos hU]
  · rw [if_neg hU]
    exact alGet_alSet_ne _ _ _ _ hk

theorem runStepsLoop_preserveGet (env : PipelineEnv) (iso : String) (k : String)
    (h1 : k ≠ "last_status") (h2 : k ≠ "last_error_step")
    (h3 : k ≠ "last_finished_at") (h4 : k ≠ "uploads") :
    ∀ (steps : List (String × List String)) (st : StateDict),
      alGet (runStepsLoop env iso steps st).1 k = alGet st k := by
  intro steps
  induction steps with
  | nil => intro st; rfl
  | cons s rest ih =>
    intro st
    obtain ⟨name, cmd⟩ := s
    simp only [runStepsLoop]
    have hst1 : alGet (if name = "upload" then applyUploads env iso st else st) k
        = alGet st k := by
      by_cases hu : name = "upload"
      · rw [if_pos hu]; exact applyUploads_preserveGet env iso st k h4
      · rw [if_neg hu]
    by_cases hc : env.exitCode name ≠ 0
    · rw [if_pos hc]
      dsimp only
      rw [alGet_alSet_ne _ _ _ _ h3, alGet_alSet_ne _ _ _ _ h2,
        alGet_alSet_ne _ _ _ _ h1]
      exact hst1
    · rw [if_neg hc]
      dsimp only
      rw [ih]
      exact hst1

theorem runPipelineJob_last_profile (env : PipelineEnv) (cfg : ScheduleConfig)
    (now : PyDateTime) (sb : String) (f : Bool) (fp : Option String) (st : StateDict) :
    alGet (runPipelineJob env cfg now sb f fp st).1 "last_profile" =
      some (Json.str (jobProfile st fp)) := by
  simp only [runPipelineJob]
  by_cases hl : env.lockFree
  · rw [if_pos hl]
    split
    · rw [runStepsLoop_preserveGet env _ _ (by decide) (by decide) (by decide) (by decide)]
      rw [alGet_alSet_self]
    · rw [alGet_alRemove_ne _ _ _ (by decide), alGet_alRemove_ne _ _ _ (by decide),
        alGet_alSet_ne _ _ _ _ (by decide), alGet_alSet_ne _ _ _ _ (by decide),
        alGet_alSet_ne _ _ _ _ (by decide), alGet_alSet_ne _ _ _ _ (by decide)]
      rw [runStepsLoop_preserveGet env _ _ (by decide) (by decide) (by decide) (by decide)]
      rw [alGet_alSet_self]
  · rw [if_neg hl]
    rw [alGet_alSet_ne _ _ _ _ (by decide), alGet_alSet_ne _ _ _ _ (by decide),
      alGet_alSet_self]

theorem parseLines_eq : ∀ (lines : List (List Char)),
    parseLines lines = ((lines.map stripL).filter isMarkerLine).map lineRecord := by
  intro lines
  induction lines with
  | nil => rfl
  | cons line rest ih =>
    simp only [parseLines, List.map_cons, List.filter_cons]
    by_cases h : isMarkerLine (stripL line) = true
    · rw [if_pos h, if_pos h, List.map_cons, ih]
    · rw [if_neg h, if_neg h, ih]

/-! ## Claim theorems (runner, parser, orchestration) -/

/-- Claim C4: over any ordered step list, if the step at index i is the
first to exit non-zero, the loop invokes exactly the steps up to and
including i, aborts, and the persisted state ends with status "failed" and
last_error_step naming step i. -/
theorem c4_first_failure_aborts (env : PipelineEnv) (nowIso : String) :
    ∀ (steps : List (String × List String)) (i : Nat) (hi : i < steps.length),
      env.exitCode (steps.get ⟨i, hi⟩).1 ≠ 0 →
      (∀ s ∈ steps.take i, env.exitCode s.1 = 0) →
      ∀ st : StateDict,
        (runStepsLoop env nowIso steps st).2.1 = (steps.take (i + 1)).map Prod.fst ∧
        (runStepsLoop env nowIso steps st).2.2 = true ∧
        alGet (runStepsLoop env nowIso steps st).1 "last_status" =
          some (Json.str "failed") ∧
        alGet (runStepsLoop env nowIso steps st).1 "last_error_step" =
          some (Json.str (steps.get ⟨i, hi⟩).1) := by
  intro steps
  induction steps with
  | nil => intro i hi; exact absurd hi (by simp)
  | cons s rest ih =>
    intro i hi hfail hok st
    obtain ⟨name, cmd⟩ := s
    cases i with
    | zero =>
      have hf : env.exitCode name ≠ 0 := hfail
      simp only [runStepsLoop]
      rw [if_pos hf]
      refine ⟨rfl, rfl, ?_, ?_⟩
      · dsimp only
        rw [alGet_alSet_ne _ _ _ _ (by decide), alGet_alSet_ne _ _ _ _ (by decide),
          alGet_alSet_self]
      · dsimp only
        rw [alGet_alSet_ne _ _ _ _ (by decide), alGet_alSet_self]
        rfl
    | succ i' =>
      have h0 : env.exitCode name = 0 := by
        refine hok (name, cmd) ?_
        rw [List.take_succ_cons]
        exact List.mem_cons_self _ _
      have hfail' : env.exitCode (rest.get ⟨i', Nat.lt_of_succ_lt_succ hi⟩).1 ≠ 0 := hfail
      have hok' : ∀ s ∈ rest.take i', env.exitCode s.1 = 0 := by
        intro s hs
        refine hok s ?_
        rw [List.take_succ_cons]
        exact List.mem_cons_of_mem _ hs
      simp only [runStepsLoop]
      rw [if_neg (by simp [h0])]
      obtain ⟨e1, e2, e3, e4⟩ := ih i' (Nat.lt_of_succ_lt_succ hi) hfail' hok'
        (if name = "upload" then applyUploads env nowIso st else st)
      refine ⟨?_, ?_, ?_, ?_⟩
      · dsimp only
        rw [List.take_succ_cons, List.map_cons, e1]
      · dsimp only
        rw [e2]
      · dsimp only
        rw [e3]
      · dsimp only
        rw [e4]
        rfl

/-- Witness for c4_first_failure_aborts: three steps a, b, c where b is the
first failure; only a and b are invoked and the state records the failure
at b. -/
theorem c4_witness :
    envC4.exitCode (stepsC4.get ⟨1, by decide⟩).1 ≠ 0 ∧
    (runStepsLoop envC4 "ts" stepsC4 []).2.1 = ["a", "b"] ∧
    (runStepsLoop envC4 "ts" stepsC4 []).2.2 = true ∧
    alGet (runStepsLoop envC4 "ts" stepsC4 []).1 "last_status" =
      some (Json.str "failed") ∧
    alGet (runStepsLoop envC4 "ts" stepsC4 []).1 "last_error_step" =
      some (Json.str "b") := by
  have h := c4_first_failure_aborts envC4 "ts" stepsC4 1 (by decide) (by decide)
    (by decide) []
  exact ⟨by decide, h.1.trans rfl, h.2.1, h.2.2.1, h.2.2.2.trans rfl⟩

/-- Claim C5: when the non-blocking lock acquisition fails, no step is
invoked and the state is committed with terminal status
skipped_already_running and a finish timestamp — never "failed". -/
theorem c5_lock_contention_is_skipped (env : PipelineEnv) (cfg : ScheduleConfig)
    (now : PyDateTime) (sb : String) (f : Bool) (fp : Option String) (st : StateDict) :
    (runPipelineJob { env with lockFree := false } cfg now sb f fp st).2 = [] ∧
    alGet (runPipelineJob { env with lockFree := false } cfg now sb f fp st).1
      "last_status" = some (Json.str "skipped_already_running") ∧
    alGet (runPipelineJob { env with lockFree := false } cfg now sb f fp st).1
      "last_finished_at" = some (Json.str (isoTs now)) ∧
    alGet (runPipelineJob { env with lockFree := false } cfg now sb f fp st).1
      "last_status" ≠ some (Json.str "failed") := by
  have e : runPipelineJob { env with lockFree := false } cfg now sb f fp st =
      (alSet (alSet (alSet (alSet (alSet (alSet (alSet (alSet st
        "last_started_at" (Json.str (isoTs now)))
        "last_started_by" (Json.str sb))
        "last_forced" (Json.bool f))
        "last_status" (Json.str "running"))
        "last_error_step" Json.null)
        "last_profile" (Json.str (jobProfile st fp)))
        "last_status" (Json.str "skipped_already_running"))
        "last_finished_at" (Json.str (isoTs now)), []) := rfl
  rw [e]
  refine ⟨rfl, ?_, ?_, ?_⟩
  · rw [alGet_alSet_ne _ _ _ _ (by decide), alGet_alSet_self]
  · rw [alGet_alSet_self]
  · rw [alGet_alSet_ne _ _ _ _ (by decide), alGet_alSet_self]
    intro hcon
    exact absurd (Json.str.inj (Option.some.inj hcon)) (by decide)

/-- Counterexample to claim C6 as stated: the marker line
"UPLOAD_SKIPPED reason=quota" yields no id, yet the parser still appends a
record for it (the claim says no record for such a line appears). -/
theorem c6_no_id_line_still_recorded :
    parseUploadResults "UPLOAD_SKIPPED reason=quota" "" =
      [[("event", "skipped"), ("reason", "quota")]] ∧
    truthyGet [("event", "skipped"), ("reason", "quota")] "id" = none :=
  ⟨rfl, rfl⟩

/-- Claim C6 amended: the parser (total by construction, so it never
raises) emits exactly one record per stripped marker-prefixed line —
id-less lines included — and a line whose tokens yield no truthy id gets
its base record unchanged, in particular no derived URL fields are added. -/
theorem c6_marker_lines_kept (stdout stderr : String) :
    parseUploadResults stdout stderr =
      (((splitNl (stdout.toList ++ '\n' :: stderr.toList)).map stripL).filter
        isMarkerLine).map lineRecord ∧
    (∀ l : List Char, truthyGet (baseRecord l) "id" = none →
      lineRecord l = baseRecord l) := by
  refine ⟨parseLines_eq _, ?_⟩
  intro l h
  unfold lineRecord
  rw [h]

/-- Witness for c6_marker_lines_kept at a concrete id-less skipped line
(the token without '=' is ignored). -/
theorem c6_witness :
    truthyGet (baseRecord "UPLOAD_SKIPPED kind=short x".toList) "id" = none ∧
    lineRecord "UPLOAD_SKIPPED kind=short x".toList =
      baseRecord "UPLOAD_SKIPPED kind=short x".toList ∧
    parseUploadResults "UPLOAD_SKIPPED kind=short x" "" =
      [[("event", "skipped"), ("kind", "short")]] := by
  refine ⟨rfl, (c6_marker_lines_kept "UPLOAD_SKIPPED kind=short x" "").2 _ rfl, ?_⟩
  rw [(c6_marker_lines_kept "UPLOAD_SKIPPED kind=short x" "").1]
  rfl

/-- Claim C10 (implicit): _slot_profile returns "short" for every slot
minute other than 30; with no pending slot in the state and no forced
override the job's profile is "short" (slot defaults to 0), the run is
persisted with last_profile "short", and with no pending run key the
default run key uses slot 0. -/
theorem c10_profile_defaults_to_short (env : PipelineEnv) (cfg : ScheduleConfig)
    (now : PyDateTime) (sb : String) (f : Bool) (st : StateDict)
    (hpend : alGet st "_pending_slot" = none) :
    (∀ i : Int, slotProfile i = if i = 30 then "normal" else "short") ∧
    jobProfile st none = "short" ∧
    alGet (runPipelineJob env cfg now sb f none st).1 "last_profile" =
      some (Json.str "short") ∧
    (alGet st "_pending_run_key" = none →
      jobRunKey cfg now st = runKeyOf cfg now 0) := by
  have hslot : ∀ i : Int, slotProfile i = if i = 30 then "normal" else "short" := by
    intro i
    unfold slotProfile
    by_cases h30 : i = 30
    · subst h30
      rw [if_neg (show (30 : Int) ≠ 0 by decide), if_pos rfl]
    · by_cases h0 : i = 0
      · subst h0
        rw [if_pos rfl, if_neg (show (0 : Int) ≠ 30 by decide)]
      · rw [if_neg h0, if_neg h30]
  have hprof : jobProfile st none = "short" := by
    unfold jobProfile pendingSlotInt
    rw [hpend]
    rfl
  refine ⟨hslot, hprof, ?_, ?_⟩
  · rw [runPipelineJob_last_profile, hprof]
  · intro hrk
    have h1 : dGetStr st "_pending_run_key" = "" := by
      unfold dGetStr
      rw [hrk]
    simp only [jobRunKey]
    rw [h1]
    rw [show stripS "" = "" from rfl]
    rw [if_neg (by simp)]
    unfold slotOrZeroInt
    rw [hpend]
    rfl

/-- Witness for c10_profile_defaults_to_short on the empty state. -/
theorem c10_witness :
    alGet ([] : StateDict) "_pending_slot" = none ∧
    alGet ([] : StateDict) "_pending_run_key" = none ∧
    jobProfile [] none = "short" ∧
    alGet (runPipelineJob
      { lockFree := false, exitCode := fun _ => 0, stepOutput := fun _ => [] }
      defaultConfig ⟨2026, 10, 12, 7, 5, 0⟩ "schedule" false none []).1
      "last_profile" = some (Json.str "short") ∧
    jobRunKey defaultConfig ⟨2026, 10, 12, 7, 5, 0⟩ [] =
      runKeyOf defaultConfig ⟨2026, 10, 12, 7, 5, 0⟩ 0 := by
  have h := c10_profile_defaults_to_short
    { lockFree := false, exitCode := fun _ => 0, stepOutput := fun _ => [] }
    defaultConfig ⟨2026, 10, 12, 7, 5, 0⟩ "schedule" false [] rfl
  exact ⟨rfl, rfl, h.2.1, h.2.2.1, h.2.2.2 rfl⟩

/-! ## Log truncation lemmas -/

theorem splitNl_ne_nil (l : List Char) (h : l ≠ []) : splitNl l ≠ [] := by
  cases l with
  | nil => exact absurd rfl h
  | cons c cs =>
    simp only [splitNl]
    by_cases hc : c = '\n'
    · rw [if_pos hc]; exact List.cons_ne_nil _ _
    · rw [if_neg hc]
      cases splitNl cs <;> exact List.cons_ne_nil _ _

theorem intercalateNl_splitNl_length (s : List Char) :
    (intercalateNl (splitNl s)).length ≤ s.length := by
  induction s with
  | nil => simp [splitNl, intercalateNl]
  | cons c cs ih =>
    by_cases h : c = '\n'
    · subst h
      simp only [splitNl, if_pos rfl]
      cases hcs : splitNl cs with
      | nil => simp [intercalateNl]
      | cons l ls =>
        rw [hcs] at ih
        simp only [intercalateNl, List.nil_append, List.length_cons]
        simpa using Nat.succ_le_succ ih
    · simp only [splitNl, if_neg h]
      cases hcs : splitNl cs with
      | nil => simp [intercalateNl]
      | cons l ls =>
        rw [hcs] at ih
        cases ls with
        | nil =>
          simp only [intercalateNl] at ih ⊢
          simpa using Nat.succ_le_succ ih
        | cons l2 ls2 =>
          simp only [intercalateNl] at ih ⊢
          simp only [List.length_append, List.length_cons] at ih ⊢
          omega

theorem intercalateNl_cons_length (x : List Char) (xs : List (List Char)) :
    (intercalateNl xs).length ≤ (intercalateNl (x :: xs)).length := by
  cases xs with
  | nil => simp [intercalateNl]
  | cons y ys =>
    simp only [intercalateNl, List.length_append, List.length_cons]
    omega

theorem intercalateNl_drop_length (l : List (List Char)) (k : Nat) :
    (intercalateNl (l.drop k)).length ≤ (intercalateNl l).length := by
  induction l generalizing k with
  | nil => simp
  | cons x xs ih =>
    cases k with
    | zero => simp
    | succ k' =>
      rw [List.drop_succ_cons]
      exact le_trans (ih k') (intercalateNl_cons_length x xs)

theorem intercalateNl_cons_suffix (x : List Char) (xs : List (List Char)) :
    (intercalateNl xs ++ ['\n']).IsSuffix (intercalateNl (x :: xs) ++ ['\n']) := by
  cases xs with
  | nil => exact ⟨x, rfl⟩
  | cons y ys =>
    refine ⟨x ++ ['\n'], ?_⟩
    simp [intercalateNl]

theorem intercalateNl_drop_suffix (l : List (List Char)) (k : Nat) :
    (intercalateNl (l.drop k) ++ ['\n']).IsSuffix (intercalateNl l ++ ['\n']) := by
  induction l generalizing k with
  | nil => simp
  | cons x xs ih =>
    cases k with
    | zero => exact List.suffix_refl _
    | succ k' =>
      rw [List.drop_succ_cons]
      exact (ih k').trans (intercalateNl_cons_suffix x xs)

theorem intercalateNl_splitNl_of_newline :
    ∀ (s : List Char), s.getLast? = some '\n' →
      intercalateNl (splitNl s) ++ ['\n'] = s := by
  intro s
  induction s with
  | nil => intro h; simp at h
  | cons c cs ih =>
    intro h
    cases cs with
    | nil =>
      have hc : c = '\n' := by simpa [List.getLast?] using h
      subst hc
      rfl
    | cons c2 cs2 =>
      have h' : (c2 :: cs2).getLast? = some '\n' := by
        rwa [List.getLast?_cons_cons] at h
      have hne : splitNl (c2 :: cs2) ≠ [] := splitNl_ne_nil _ (List.cons_ne_nil _ _)
      obtain ⟨l, ls, hls⟩ := List.exists_cons_of_ne_nil hne
      have hsplit : splitNl (c :: c2 :: cs2) =
          if c = '\n' then [] :: splitNl (c2 :: cs2)
          else
            match splitNl (c2 :: cs2) with
            | [] => [[c]]
            | l :: ls => (c :: l) :: ls := rfl
      by_cases hc : c = '\n'
      · subst hc
        have ihe := ih h'
        rw [hls] at ihe
        rw [hsplit, if_pos rfl, hls]
        simp only [intercalateNl, List.nil_append]
        rw [List.cons_append, ihe]
      · have ihe := ih h'
        rw [hls] at ihe
        rw [hsplit, if_neg hc, hls]
        show intercalateNl ((c :: l) :: ls) ++ ['\n'] = c :: c2 :: cs2
        cases ls with
        | nil =>
          simp only [intercalateNl] at ihe ⊢
          rw [List.cons_append, ihe]
        | cons l2 ls2 =>
          simp only [intercalateNl] at ihe ⊢
          rw [List.cons_append, List.cons_append, ihe]

/-- Claim C8: a truncation pass leaves a log not exceeding its ceiling
(untruncated logs are at most maxB, truncated ones at most tailB + 1 ≤
maxB + 1 bytes, the +1 being the rewritten trailing newline); when the
size exceeded the ceiling the pass keeps only a bounded tail of the most
recent bytes cut to whole lines — a suffix of the original content —
discarding the head. -/
theorem c8_truncation_bounds (maxB tailB : Nat) (content : List Char)
    (hcap : tailB ≤ maxB) :
    (content.length ≤ maxB → truncateLog maxB tailB content = content) ∧
    (truncateLog maxB tailB content).length ≤ maxB + 1 ∧
    (maxB < content.length →
      (truncateLog maxB tailB content).length ≤ tailB + 1 ∧
      (content.getLast? = some '\n' →
        (truncateLog maxB tailB content).IsSuffix content)) := by
  by_cases hlen : content.length ≤ maxB
  · have e : truncateLog maxB tailB content = content := by
      unfold truncateLog
      rw [if_pos hlen]
    rw [e]
    exact ⟨fun _ => rfl, by omega, fun h => absurd h (by omega)⟩
  · have e : truncateLog maxB tailB content =
        intercalateNl (takeLast 2000 (splitNl
          (takeLast (min tailB content.length) content))) ++ ['\n'] := by
      unfold truncateLog
      rw [if_neg hlen]
    set chunk := takeLast (min tailB content.length) content with hchunk
    have hchunklen : chunk.length = min tailB content.length := by
      rw [hchunk]
      unfold takeLast
      rw [List.length_drop]
      omega
    have hb : (truncateLog maxB tailB content).length ≤ tailB + 1 := by
      rw [e, List.length_append]
      have h3 : (intercalateNl (takeLast 2000 (splitNl chunk))).length =
          (intercalateNl ((splitNl chunk).drop ((splitNl chunk).length - 2000))).length :=
        rfl
      rw [h3]
      have h1 := intercalateNl_drop_length (splitNl chunk) ((splitNl chunk).length - 2000)
      have h2 := intercalateNl_splitNl_length chunk
      simp only [List.length_cons, List.length_nil]
      omega
    refine ⟨fun h => absurd h hlen, by omega, fun hgt => ⟨hb, ?_⟩⟩
    intro hlast
    rw [e]
    by_cases h0 : min tailB content.length = 0
    · have hchunk0 : chunk = [] := by
        rw [hchunk]
        unfold takeLast
        rw [h0, Nat.sub_zero, List.drop_length]
      rw [hchunk0]
      show List.IsSuffix ['\n'] content
      exact ⟨content.dropLast, List.dropLast_append_getLast? '\n' (Option.mem_def.mpr hlast)⟩
    · have hchunkne : chunk ≠ [] := by
        intro hn
        rw [hn] at hchunklen
        simp at hchunklen
        omega
      have hsufc : chunk.IsSuffix content := by
        rw [hchunk]
        exact List.drop_suffix _ _
      have hlastchunk : chunk.getLast? = some '\n' := by
        obtain ⟨t, ht⟩ := hsufc
        rw [← ht, List.getLast?_append] at hlast
        cases hc : chunk.getLast? with
        | none => exact absurd (List.getLast?_eq_none_iff.mp hc) hchunkne
        | some x =>
          rw [hc] at hlast
          simpa using hlast
      have heq := intercalateNl_splitNl_of_newline chunk hlastchunk
      have hsuf1 : (intercalateNl (takeLast 2000 (splitNl chunk)) ++ ['\n']).IsSuffix
          (intercalateNl (splitNl chunk) ++ ['\n']) :=
        intercalateNl_drop_suffix (splitNl chunk) ((splitNl chunk).length - 2000)
      rw [heq] at hsuf1
      exact hsuf1.trans hsufc

/-- Witness for c8_truncation_bounds: ceiling 5, tail budget 3, a 9-byte
log of three lines; the pass keeps the last whole line "ef\n". -/
theorem c8_witness :
    (3 : Nat) ≤ 5 ∧
    truncateLog 5 3 "ab\ncd\nef\n".toList = "ef\n".toList ∧
    (truncateLog 5 3 "ab\ncd\nef\n".toList).length ≤ 5 + 1 ∧
    (truncateLog 5 3 "ab\ncd\nef\n".toList).length ≤ 3 + 1 ∧
    (truncateLog 5 3 "ab\ncd\nef\n".toList).IsSuffix "ab\ncd\nef\n".toList := by
  have h := c8_truncation_bounds 5 3 "ab\ncd\nef\n".toList (by decide)
  exact ⟨by decide, rfl, h.2.1, (h.2.2 (by decide)).1, (h.2.2 (by decide)).2 (by decide)⟩

/-! ## Mutual exclusion lemmas -/

theorem orch_lock_inv (own : Nat → Nat) (s : OrchSys) (h : OrchReachable own s) :
    ∀ j, s.phase j = JobPhase.running → s.lockHolder = some j := by
  induction h with
  | init => intro j hj; simp [initSys] at hj
  | step hr hst ih =>
    cases hst with
    | spawn j hnot hguard =>
      intro a ha
      dsimp only at ha ⊢
      by_cases haj : a = j
      · rw [if_pos haj] at ha; cases ha
      · rw [if_neg haj] at ha
        exact ih a ha
    | acquire j hstarted hnone =>
      intro a ha
      dsimp only at ha ⊢
      by_cases haj : a = j
      · rw [haj]
      · rw [if_neg haj] at ha
        have := ih a ha
        rw [hnone] at this
        cases this
    | skipLock j hld hstarted hheld =>
      intro a ha
      dsimp only at ha ⊢
      by_cases haj : a = j
      · rw [if_pos haj] at ha; cases ha
      · rw [if_neg haj] at ha
        exact ih a ha
    | finish j hrun =>
      intro a ha
      dsimp only at ha ⊢
      by_cases haj : a = j
      · rw [if_pos haj] at ha; cases ha
      · rw [if_neg haj] at ha
        have h1 := ih a ha
        have h2 := ih j hrun
        rw [h1] at h2
        exact absurd (Option.some.inj h2) haj

theorem orch_alive_unique (own : Nat → Nat) (s : OrchSys) (h : OrchReachable own s) :
    ∀ a b, (s.phase a).alive = true → (s.phase b).alive = true →
      s.owner a = s.owner b → a = b := by
  induction h with
  | init => intro a b ha; simp [initSys, JobPhase.alive] at ha
  | step hr hst ih =>
    cases hst with
    | spawn j hnot hguard =>
      intro a b ha hb howner
      dsimp only at ha hb howner
      by_cases haj : a = j <;> by_cases hbj : b = j
      · rw [haj, hbj]
      · rw [if_neg hbj] at hb
        subst haj
        exact absurd (hguard b howner.symm) (by rw [hb]; decide)
      · rw [if_neg haj] at ha
        subst hbj
        exact absurd (hguard a howner) (by rw [ha]; decide)
      · rw [if_neg haj] at ha
        rw [if_neg hbj] at hb
        exact ih a b ha hb howner
    | acquire j hstarted hnone =>
      intro a b ha hb howner
      dsimp only at ha hb howner
      refine ih a b ?_ ?_ howner
      · by_cases haj : a = j
        · rw [haj, hstarted]; rfl
        · rwa [if_neg haj] at ha
      · by_cases hbj : b = j
        · rw [hbj, hstarted]; rfl
        · rwa [if_neg hbj] at hb
    | skipLock j hld hstarted hheld =>
      intro a b ha hb howner
      dsimp only at ha hb howner
      refine ih a b ?_ ?_ howner
      · by_cases haj : a = j
        · rw [if_pos haj] at ha; cases ha
        · rwa [if_neg haj] at ha
      · by_cases hbj : b = j
        · rw [if_pos hbj] at hb; cases hb
        · rwa [if_neg hbj] at hb
    | finish j hrun =>
      intro a b ha hb howner
      dsimp only at ha hb howner
      refine ih a b ?_ ?_ howner
      · by_cases haj : a = j
        · rw [if_pos haj] at ha; cases ha
        · rwa [if_neg haj] at ha
      · by_cases hbj : b = j
        · rw [if_pos hbj] at hb; cases hb
        · rwa [if_neg hbj] at hb

/-- Claim C9: in every reachable system state, at most one job executes the
pipeline (two running jobs coincide, because a running job holds the
advisory lock), and per process at most one background job is alive (the
thread-guarded spawn refuses otherwise), under any number of concurrent
trigger calls in any interleaving. -/
theorem c9_mutual_exclusion (own : Nat → Nat) (s : OrchSys)
    (h : OrchReachable own s) :
    (∀ j k, s.phase j = JobPhase.running → s.phase k = JobPhase.running → j = k) ∧
    (∀ j k, (s.phase j).alive = true → (s.phase k).alive = true →
      s.owner j = s.owner k → j = k) := by
  refine ⟨?_, orch_alive_unique own s h⟩
  intro j k hj hk
  have h1 := orch_lock_inv own s h j hj
  have h2 := orch_lock_inv own s h k hk
  rw [h1] at h2
  exact Option.some.inj h2

/-- Witness for c9_mutual_exclusion: after spawning job 0 and acquiring the
lock, job 0 is the unique running job. -/
theorem c9_witness :
    demoSys2.phase 0 = JobPhase.running ∧ demoSys2.lockHolder = some 0 ∧
    (0 : Nat) = 0 := by
  have hreach : OrchReachable demoOwner demoSys2 :=
    OrchReachable.step
      (OrchReachable.step OrchReachable.init
        (OrchStep.spawn (initSys demoOwner) 0 rfl (fun j' _ => rfl)))
      (OrchStep.acquire demoSys1 0 rfl rfl)
  exact ⟨rfl, rfl, (c9_mutual_exclusion demoOwner demoSys2 hreach).1 0 0 rfl rfl⟩

/-! ## JSON codec lemmas -/

theorem string_mk_toList (s : String) : String.mk s.toList = s := rfl

theorem parseStringBody_escList (s : List Char) :
    ∀ (rest : List Char), parseStringBody (escList s ++ '"' :: rest) = some (s, rest) := by
  induction s with
  | nil =>
    intro rest
    rw [show escList [] ++ '"' :: rest = '"' :: rest from rfl, parseStringBody.eq_def]
    simp
  | cons c cs ih =>
    intro rest
    by_cases h1 : c = '"'
    · subst h1
      rw [show escList ('"' :: cs) ++ '"' :: rest =
        '\\' :: '"' :: (escList cs ++ '"' :: rest) from by simp [escList, escChar]]
      rw [parseStringBody.eq_def]
      simp [unescChar, ih]
    · by_cases h2 : c = '\\'
      · subst h2
        rw [show escList ('\\' :: cs) ++ '"' :: rest =
          '\\' :: '\\' :: (escList cs ++ '"' :: rest) from by simp [escList, escChar]]
        rw [parseStringBody.eq_def]
        simp [unescChar, ih]
      · by_cases h3 : c = '\n'
        · subst h3
          rw [show escList ('\n' :: cs) ++ '"' :: rest =
            '\\' :: 'n' :: (escList cs ++ '"' :: rest) from by simp [escList, escChar]]
          rw [parseStringBody.eq_def]
          simp [unescChar, ih]
        · by_cases h4 : c = '\t'
          · subst h4
            rw [show escList ('\t' :: cs) ++ '"' :: rest =
              '\\' :: 't' :: (escList cs ++ '"' :: rest) from by simp [escList, escChar]]
            rw [parseStringBody.eq_def]
            simp [unescChar, ih]
          · by_cases h5 : c = '\r'
            · subst h5
              rw [show escList ('\r' :: cs) ++ '"' :: rest =
                '\\' :: 'r' :: (escList cs ++ '"' :: rest) from by simp [escList, escChar]]
              rw [parseStringBody.eq_def]
              simp [unescChar, ih]
            · rw [show escList (c :: cs) ++ '"' :: rest =
                c :: (escList cs ++ '"' :: rest) from by
                  simp [escList, escChar, h1, h2, h3, h4, h5]]
              rw [parseStringBody.eq_def]
              simp [h1, h2, ih]

theorem digitVal_dig : ∀ m < 10, digitVal (dig m) = m := by decide

theorem parseDigitsAcc_stop (acc : Nat) (l : List Char) (h : digitStartB l = false) :
    parseDigitsAcc acc l = (acc, l) := by
  cases l with
  | nil => rfl
  | cons c rest =>
    simp only [digitStartB] at h
    simp [parseDigitsAcc, h]

theorem renderNatAux_ne_nil (fuel m : Nat) (h : m < fuel) : renderNatAux fuel m ≠ [] := by
  cases fuel with
  | zero => omega
  | succ f =>
    simp only [renderNatAux]
    by_cases h10 : m < 10
    · rw [if_pos h10]; exact List.cons_ne_nil _ _
    · rw [if_neg h10]
      intro hc
      exact absurd (List.append_eq_nil.mp hc).2 (List.cons_ne_nil _ _)

theorem parseDigitsAcc_render (fuel : Nat) :
    ∀ (m acc : Nat) (rest : List Char), m < fuel →
      parseDigitsAcc acc (renderNatAux fuel m ++ rest) =
        parseDigitsAcc (acc * 10 ^ (renderNatAux fuel m).length + m) rest := by
  induction fuel with
  | zero => intro m acc rest h; omega
  | succ f ih =>
    intro m acc rest h
    by_cases h10 : m < 10
    · have hr : renderNatAux (f + 1) m = [dig m] := by
        simp [renderNatAux, h10]
      rw [hr]
      show parseDigitsAcc acc (dig m :: rest) = _
      simp only [parseDigitsAcc, dig_isDigit m, if_true, List.length_cons,
        List.length_nil]
      rw [digitVal_dig m h10]
      norm_num
    · have hr : renderNatAux (f + 1) m =
          renderNatAux f (m / 10) ++ [dig (m % 10)] := by
        simp [renderNatAux, h10]
      have hdiv : m / 10 < f := by
        have h1 := Nat.div_lt_self (by omega : 0 < m) (by omega : 1 < 10)
        omega
      rw [hr, List.append_assoc, List.singleton_append,
        ih (m / 10) acc (dig (m % 10) :: rest) hdiv]
      have hstep : parseDigitsAcc (acc * 10 ^ (renderNatAux f (m / 10)).length + m / 10)
          (dig (m % 10) :: rest) =
          parseDigitsAcc ((acc * 10 ^ (renderNatAux f (m / 10)).length + m / 10) * 10 +
            m % 10) rest := by
        simp only [parseDigitsAcc, dig_isDigit (m % 10), if_true]
        rw [digitVal_dig (m % 10) (Nat.mod_lt m (by omega))]
      rw [hstep]
      have harith : (acc * 10 ^ (renderNatAux f (m / 10)).length + m / 10) * 10 + m % 10 =
          acc * 10 ^ (renderNatAux f (m / 10) ++ [dig (m % 10)]).length + m := by
        rw [List.length_append, List.length_cons, List.length_nil, pow_succ]
        have hm := Nat.div_add_mod m 10
        set t := 10 ^ (renderNatAux f (m / 10)).length
        calc (acc * t + m / 10) * 10 + m % 10
            = acc * (t * 10) + (10 * (m / 10) + m % 10) := by ring
          _ = acc * (t * 10) + m := by rw [hm]
      rw [harith]

theorem parseNumNat_render (m : Nat) (rest : List Char) (h : digitStartB rest = false) :
    parseNumNat (renderNatChars m ++ rest) = some (m, rest) := by
  have hne : renderNatChars m ≠ [] := renderNatAux_ne_nil (m + 1) m (by omega)
  obtain ⟨c, cs, hc⟩ := List.exists_cons_of_ne_nil hne
  have hdig : isDigitB c = true := by
    have hc' : renderNatAux (m + 1) m = c :: cs := hc
    exact renderNatAux_digits (m + 1) m c (by rw [hc']; exact List.mem_cons_self _ _)
  have key : parseDigitsAcc 0 (renderNatChars m ++ rest) =
      parseDigitsAcc (0 * 10 ^ (renderNatChars m).length + m) rest :=
    parseDigitsAcc_render (m + 1) m 0 rest (by omega)
  have key' : parseDigitsAcc 0 (renderNatChars m ++ rest) = (m, rest) := by
    rw [key, parseDigitsAcc_stop _ _ h]
    norm_num
  rw [hc, List.cons_append]
  simp only [parseNumNat, hdig, if_true]
  rw [← List.cons_append, ← hc, key']

theorem isDigit_ne_reserved {c : Char} (h : isDigitB c = true) :
    c ≠ 'n' ∧ c ≠ 't' ∧ c ≠ 'f' ∧ c ≠ '"' ∧ c ≠ '-' ∧ c ≠ '[' ∧ c ≠ lbraceC ∧
    c ≠ ']' ∧ c ≠ ',' ∧ c ≠ rbraceC ∧ c ≠ ':' := by
  simp only [isDigitB, Bool.or_eq_true, beq_iff_eq] at h
  rcases h with (((((((((h | h) | h) | h) | h) | h) | h) | h) | h) | h) <;>
    subst h <;> exact ⟨by decide, by decide, by decide, by decide, by decide,
      by decide, by decide, by decide, by decide, by decide, by decide⟩

theorem dumpChars_head_ne_rbracket (j : Json) :
    ∃ c cs, dumpChars j = c :: cs ∧ c ≠ ']' := by
  cases j with
  | null => exact ⟨'n', _, rfl, by decide⟩
  | bool b =>
    cases b with
    | false => exact ⟨'f', _, rfl, by decide⟩
    | true => exact ⟨'t', _, rfl, by decide⟩
  | num i =>
    by_cases hi : i < 0
    · refine ⟨'-', renderNatChars i.natAbs, ?_, by decide⟩
      simp [dumpChars, renderIntChars, hi]
    · have hne : renderNatChars i.toNat ≠ [] := renderNatAux_ne_nil _ _ (by omega)
      obtain ⟨c, cs, hc⟩ := List.exists_cons_of_ne_nil hne
      have hdig : isDigitB c = true := by
        have hc' : renderNatAux (i.toNat + 1) i.toNat = c :: cs := hc
        exact renderNatAux_digits _ _ c (by rw [hc']; exact List.mem_cons_self _ _)
      refine ⟨c, cs, ?_, (isDigit_ne_reserved hdig).2.2.2.2.2.2.2.1⟩
      rw [show dumpChars (Json.num i) = renderNatChars i.toNat from by
        simp [dumpChars, renderIntChars, hi], hc]
  | str s => exact ⟨'"', _, rfl, by decide⟩
  | arr xs => cases xs with
    | nil => exact ⟨'[', _, rfl, by decide⟩
    | cons x xs' => exact ⟨'[', _, rfl, by decide⟩
  | obj kvs => cases kvs with
    | nil => exact ⟨lbraceC, _, rfl, by decide⟩
    | cons kv kvs' => exact ⟨lbraceC, _, rfl, by decide⟩

theorem jcost_pos (j : Json) : 1 ≤ jcost j := by
  cases j with
  | null => simp [jcost]
  | bool b => simp [jcost]
  | num i => simp [jcost]
  | str s => simp [jcost]
  | arr xs => cases xs <;> simp [jcost]
  | obj kvs => cases kvs <;> simp [jcost]

theorem digitStartB_itemsEnd (xs : List Json) (rest : List Char) :
    digitStartB (dumpItemsRest xs ++ ']' :: rest) = false := by
  cases xs with
  | nil =>
    rw [show dumpItemsRest ([] : List Json) = [] from by simp [dumpItemsRest]]
    rfl
  | cons y ys =>
    rw [show dumpItemsRest (y :: ys) = ',' :: (dumpChars y ++ dumpItemsRest ys) from by
      simp [dumpItemsRest]]
    rfl

theorem digitStartB_fieldsEnd (kvs : List (String × Json)) (rest : List Char) :
    digitStartB (dumpFieldsRest kvs ++ rbraceC :: rest) = false := by
  cases kvs with
  | nil =>
    rw [show dumpFieldsRest ([] : List (String × Json)) = [] from by
      simp [dumpFieldsRest]]
    rfl
  | cons kv kvs' =>
    rw [show dumpFieldsRest (kv :: kvs') = ',' :: (dumpField kv ++ dumpFieldsRest kvs')
      from by simp [dumpFieldsRest]]
    rfl

theorem parse_dump_roundtrip : ∀ (fuel : Nat),
    (∀ (j : Json) (rest : List Char), jcost j ≤ fuel → digitStartB rest = false →
      parseVal fuel (dumpChars j ++ rest) = some (j, rest)) ∧
    (∀ (x : Json) (xs : List Json) (rest : List Char), listCost (x :: xs) ≤ fuel →
      parseItems fuel (dumpChars x ++ (dumpItemsRest xs ++ ']' :: rest)) =
        some (x :: xs, rest)) ∧
    (∀ (k : String) (v : Json) (kvs : List (String × Json)) (rest : List Char),
      fieldsCost ((k, v) :: kvs) ≤ fuel →
      parseFields fuel ('"' :: (escList k.toList ++ '"' :: ':' ::
        (dumpChars v ++ (dumpFieldsRest kvs ++ rbraceC :: rest)))) =
        some ((k, v) :: kvs, rest)) := by
  intro fuel
  induction fuel with
  | zero =>
    refine ⟨?_, ?_, ?_⟩
    · intro j rest hc _
      have := jcost_pos j
      omega
    · intro x xs rest hc
      simp only [listCost] at hc
      omega
    · intro k v kvs rest hc
      simp only [fieldsCost] at hc
      omega
  | succ f ih =>
    obtain ⟨ihV, ihI, ihF⟩ := ih
    refine ⟨?_, ?_, ?_⟩
    · intro j rest hcost hrest
      cases j with
      | null =>
        rw [show dumpChars Json.null ++ rest = 'n' :: 'u' :: 'l' :: 'l' :: rest from by
          simp [dumpChars]]
        simp [parseVal]
      | bool b =>
        cases b with
        | true =>
          rw [show dumpChars (Json.bool true) ++ rest = 't' :: 'r' :: 'u' :: 'e' :: rest
            from by simp [dumpChars]]
          simp [parseVal]
        | false =>
          rw [show dumpChars (Json.bool false) ++ rest =
            'f' :: 'a' :: 'l' :: 's' :: 'e' :: rest from by simp [dumpChars]]
          simp [parseVal]
      | num i =>
        by_cases hi : i < 0
        · rw [show dumpChars (Json.num i) ++ rest =
            '-' :: (renderNatChars i.natAbs ++ rest) from by
              simp [dumpChars, renderIntChars, hi]]
          rw [show parseVal (f + 1) ('-' :: (renderNatChars i.natAbs ++ rest)) =
            match parseNumNat (renderNatChars i.natAbs ++ rest) with
            | some p => some (Json.num (-(p.1 : Int)), p.2)
            | none => none from by simp [parseVal]]
          rw [parseNumNat_render i.natAbs rest hrest]
          have he : -((i.natAbs : Nat) : Int) = i := by omega
          show some (Json.num (-((i.natAbs : Nat) : Int)), rest) = some (Json.num i, rest)
          rw [he]
        · have hne : renderNatChars i.toNat ≠ [] := renderNatAux_ne_nil _ _ (by omega)
          obtain ⟨c, cs, hc⟩ := List.exists_cons_of_ne_nil hne
          have hdig : isDigitB c = true := by
            have hc' : renderNatAux (i.toNat + 1) i.toNat = c :: cs := hc
            exact renderNatAux_digits _ _ c (by rw [hc']; exact List.mem_cons_self _ _)
          obtain ⟨hn1, hn2, hn3, hn4, hn5, hn6, hn7, _⟩ := isDigit_ne_reserved hdig
          rw [show dumpChars (Json.num i) ++ rest = c :: (cs ++ rest) from by
            simp [dumpChars, renderIntChars, hi, hc]]
          rw [show parseVal (f + 1) (c :: (cs ++ rest)) =
            match parseNumNat (c :: (cs ++ rest)) with
            | some p => some (Json.num (p.1 : Int), p.2)
            | none => none from by
              simp only [parseVal]
              rw [if_neg hn1, if_neg hn2, if_neg hn3, if_neg hn4, if_neg hn5,
                if_neg hn6, if_neg hn7, if_pos hdig]]
          rw [show (c :: (cs ++ rest) : List Char) = renderNatChars i.toNat ++ rest from by
            rw [hc, List.cons_append]]
          rw [parseNumNat_render i.toNat rest hrest]
          have he : ((i.toNat : Nat) : Int) = i := by omega
          show some (Json.num ((i.toNat : Nat) : Int), rest) = some (Json.num i, rest)
          rw [he]
      | str st =>
        rw [show dumpChars (Json.str st) ++ rest =
          '"' :: (escList st.toList ++ '"' :: rest) from by
            simp [dumpChars, List.append_assoc]]
        rw [show parseVal (f + 1) ('"' :: (escList st.toList ++ '"' :: rest)) =
          match parseStringBody (escList st.toList ++ '"' :: rest) with
          | some p => some (Json.str (String.mk p.1), p.2)
          | none => none from by simp [parseVal]]
        rw [parseStringBody_escList st.toList rest]
        rfl
      | arr xs =>
        cases xs with
        | nil =>
          rw [show dumpChars (Json.arr []) ++ rest = '[' :: ']' :: rest from by
            simp [dumpChars]]
          simp [parseVal]
        | cons x xs' =>
          obtain ⟨c, cs, hcx, hcr⟩ := dumpChars_head_ne_rbracket x
          rw [show dumpChars (Json.arr (x :: xs')) ++ rest =
            '[' :: (dumpChars x ++ (dumpItemsRest xs' ++ ']' :: rest)) from by
              simp [dumpChars, List.append_assoc]]
          rw [show parseVal (f + 1)
              ('[' :: (dumpChars x ++ (dumpItemsRest xs' ++ ']' :: rest))) =
            match parseItems f (dumpChars x ++ (dumpItemsRest xs' ++ ']' :: rest)) with
            | some p => some (Json.arr p.1, p.2)
            | none => none from by
              rw [hcx, List.cons_append]
              simp [parseVal, hcr]]
          rw [ihI x xs' rest (by simp only [jcost] at hcost; omega)]
      | obj kvs =>
        cases kvs with
        | nil =>
          rw [show dumpChars (Json.obj []) ++ rest = lbraceC :: rbraceC :: rest from by
            simp [dumpChars]]
          simp [parseVal, lbraceC, rbraceC]
        | cons kv kvs' =>
          obtain ⟨k, v⟩ := kv
          rw [show dumpChars (Json.obj ((k, v) :: kvs')) ++ rest =
            lbraceC :: ('"' :: (escList k.toList ++ '"' :: ':' ::
              (dumpChars v ++ (dumpFieldsRest kvs' ++ rbraceC :: rest)))) from by
                simp [dumpChars, dumpField, List.append_assoc]]
          rw [show parseVal (f + 1) (lbraceC :: ('"' :: (escList k.toList ++ '"' :: ':' ::
              (dumpChars v ++ (dumpFieldsRest kvs' ++ rbraceC :: rest))))) =
            match parseFields f ('"' :: (escList k.toList ++ '"' :: ':' ::
              (dumpChars v ++ (dumpFieldsRest kvs' ++ rbraceC :: rest)))) with
            | some p => some (Json.obj p.1, p.2)
            | none => none from by
              simp [parseVal, lbraceC, rbraceC]]
          rw [ihF k v kvs' rest (by simp only [jcost] at hcost; omega)]
    · intro x xs rest hcost
      have hjx : jcost x ≤ f := by simp only [listCost] at hcost; omega
      have hds : digitStartB (dumpItemsRest xs ++ ']' :: rest) = false :=
        digitStartB_itemsEnd xs rest
      simp only [parseItems]
      rw [ihV x (dumpItemsRest xs ++ ']' :: rest) hjx hds]
      cases xs with
      | nil =>
        rw [show (dumpItemsRest ([] : List Json) ++ ']' :: rest : List Char) = ']' :: rest
          from by simp [dumpItemsRest]]
        simp
      | cons y ys =>
        rw [show (dumpItemsRest (y :: ys) ++ ']' :: rest : List Char) =
          ',' :: (dumpChars y ++ (dumpItemsRest ys ++ ']' :: rest)) from by
            simp [dumpItemsRest, List.append_assoc]]
        have hrec := ihI y ys rest (by simp only [listCost] at hcost ⊢; omega)
        simp [hrec]
    · intro k v kvs rest hcost
      have hjv : jcost v ≤ f := by simp only [fieldsCost] at hcost; omega
      have hdv : digitStartB (dumpFieldsRest kvs ++ rbraceC :: rest) = false :=
        digitStartB_fieldsEnd kvs rest
      have hsb := parseStringBody_escList k.toList (':' ::
        (dumpChars v ++ (dumpFieldsRest kvs ++ rbraceC :: rest)))
      have hv := ihV v (dumpFieldsRest kvs ++ rbraceC :: rest) hjv hdv
      simp only [parseFields, hsb, hv]
      cases kvs with
      | nil =>
        rw [show (dumpFieldsRest ([] : List (String × Json)) ++ rbraceC :: rest :
          List Char) = rbraceC :: rest from by simp [dumpFieldsRest]]
        rfl
      | cons kv2 kvs2 =>
        obtain ⟨k2, v2⟩ := kv2
        rw [show (dumpFieldsRest ((k2, v2) :: kvs2) ++ rbraceC :: rest : List Char) =
          ',' :: ('"' :: (escList k2.toList ++ '"' :: ':' ::
            (dumpChars v2 ++ (dumpFieldsRest kvs2 ++ rbraceC :: rest)))) from by
            simp [dumpFieldsRest, dumpField, List.append_assoc]]
        have hrec := ihF k2 v2 kvs2 rest (by simp only [fieldsCost] at hcost ⊢; omega)
        simp only [hrec]
        rfl

theorem dumpChars_len_pos (j : Json) : 1 ≤ (dumpChars j).length := by
  obtain ⟨c, cs, hc, _⟩ := dumpChars_head_ne_rbracket j
  rw [hc]
  simp

theorem cost_le_dump : ∀ (n : Nat),
    (∀ j : Json, sizeOf j < n → jcost j ≤ 2 * (dumpChars j).length) ∧
    (∀ xs : List Json, sizeOf xs < n → listCost xs ≤ 2 * (dumpItemsRest xs).length) ∧
    (∀ kvs : List (String × Json), sizeOf kvs < n →
      fieldsCost kvs ≤ 2 * (dumpFieldsRest kvs).length) := by
  intro n
  induction n with
  | zero =>
    refine ⟨?_, ?_, ?_⟩ <;> intro x h <;> omega
  | succ m ih =>
    obtain ⟨ihJ, ihL, ihP⟩ := ih
    refine ⟨?_, ?_, ?_⟩
    · intro j h
      cases j with
      | null => simp [jcost, dumpChars]
      | bool b =>
        cases b with
        | true => simp [jcost, dumpChars]
        | false => simp [jcost, dumpChars]
      | num i =>
        have hp := dumpChars_len_pos (Json.num i)
        simp only [jcost]
        omega
      | str s =>
        have hp := dumpChars_len_pos (Json.str s)
        simp only [jcost]
        omega
      | arr xs =>
        cases xs with
        | nil => simp [jcost, dumpChars]
        | cons x xs' =>
          simp only [Json.arr.sizeOf_spec, List.cons.sizeOf_spec] at h
          have hx := ihJ x (by omega)
          have hxs := ihL xs' (by omega)
          rw [show dumpChars (Json.arr (x :: xs')) =
            '[' :: (dumpChars x ++ dumpItemsRest xs') ++ [']'] from by simp [dumpChars]]
          simp only [jcost, listCost, List.length_append, List.length_cons,
            List.length_nil]
          omega
      | obj kvs =>
        cases kvs with
        | nil => simp [jcost, dumpChars]
        | cons kv kvs' =>
          obtain ⟨k, v⟩ := kv
          simp only [Json.obj.sizeOf_spec, List.cons.sizeOf_spec,
            Prod.mk.sizeOf_spec] at h
          have hv := ihJ v (by omega)
          have hkvs := ihP kvs' (by omega)
          rw [show dumpChars (Json.obj ((k, v) :: kvs')) =
            lbraceC :: (('"' :: escList k.toList ++ '"' :: ':' :: dumpChars v) ++
              dumpFieldsRest kvs') ++ [rbraceC] from by simp [dumpChars, dumpField]]
          simp only [jcost, fieldsCost, List.length_append, List.length_cons,
            List.length_nil]
          omega
    · intro xs h
      cases xs with
      | nil => simp [listCost, dumpItemsRest]
      | cons x xs' =>
        simp only [List.cons.sizeOf_spec] at h
        have hx := ihJ x (by omega)
        have hxs := ihL xs' (by omega)
        rw [show dumpItemsRest (x :: xs') = ',' :: (dumpChars x ++ dumpItemsRest xs')
          from by simp [dumpItemsRest]]
        simp only [listCost, List.length_cons, List.length_append]
        omega
    · intro kvs h
      cases kvs with
      | nil => simp [fieldsCost, dumpFieldsRest]
      | cons kv kvs' =>
        obtain ⟨k, v⟩ := kv
        simp only [List.cons.sizeOf_spec, Prod.mk.sizeOf_spec] at h
        have hv := ihJ v (by omega)
        have hkvs := ihP kvs' (by omega)
        rw [show dumpFieldsRest ((k, v) :: kvs') =
          ',' :: (('"' :: escList k.toList ++ '"' :: ':' :: dumpChars v) ++
            dumpFieldsRest kvs') from by simp [dumpFieldsRest, dumpField]]
        simp only [fieldsCost, List.length_cons, List.length_append]
        omega

theorem loads_dump (j : Json) : loads (dumpChars j) = some j := by
  have hcost : jcost j ≤ 2 * (dumpChars j).length + 2 := by
    have h := (cost_le_dump (sizeOf j + 1)).1 j (by omega)
    omega
  have hrt := (parse_dump_roundtrip (2 * (dumpChars j).length + 2)).1 j [] hcost rfl
  rw [List.append_nil] at hrt
  simp only [loads]
  rw [hrt]

/-- C7: the state store round-trips: for every state value, _write_state followed
by _read_state yields an identical structure; a missing state file reads as the
empty dict, and a file whose content json.loads rejects (for example plain prose)
also reads as the empty dict, with no exception modelled anywhere on the path. -/
theorem c7_state_roundtrip :
    (∀ st : Json, readState (writeState st) = st) ∧
    readState none = Json.obj [] ∧
    readState (some ("state file got corrupted".toList)) = Json.obj [] := by
  refine ⟨?_, rfl, rfl⟩
  intro st
  simp only [readState, writeState]
  rw [loads_dump]

/-- C7 witness: the round trip evaluated on a concrete two-field record with a
nested list, plus the missing-file default. -/
theorem c7_witness :
    readState (writeState (Json.obj [("last_status", Json.str "success"),
      ("upload_results", Json.arr [Json.num (-3), Json.null, Json.bool true])])) =
      Json.obj [("last_status", Json.str "success"),
        ("upload_results", Json.arr [Json.num (-3), Json.null, Json.bool true])] :=
  c7_state_roundtrip.1 (Json.obj [("last_status", Json.str "success"),
    ("upload_results", Json.arr [Json.num (-3), Json.null, Json.bool true])])
